import Mathlib

set_option maxHeartbeats 1000000
set_option linter.unusedVariables false
set_option linter.unreachableTactic false
set_option linter.unusedTactic false

/-!
Verification of the discrete-event amusement-park simulator (Rust sources
under `src/`).  The engine (`src/discrete_system/mod.rs`) stores its event
queue in a `std::collections::BinaryHeap` whose `Ord` on `Event` compares
only the `time` field, reversed (`other.time.cmp(&self.time)`), i.e. the
heap pops a minimal-time event.  Because tie order among equal-time events
matters for several spec sentences, the heap is embedded here by the exact
algorithms of Rust's `BinaryHeap`: `push` = append + `sift_up`, `pop` =
swap-remove the root + `sift_down_to_bottom` + final `sift_up`, and
`BinaryHeap::from(vec)` = heapify by `sift_down` from the middle.  All
comparisons are translated through the reversed `Ord`: for elements `a, b`
with key `k` (= `time` resp. `arrival_time`), `a > b ↔ k a < k b` and
`a ≤ b ↔ k b ≤ k a`.

Machine integers (`u32`, `usize`) are modelled as `Nat`; the subtractions
appearing in the sources (`current_time - idle_started`,
`arrival_time - current_time`, `current_time - started_waiting_on - 1`,
`run_time - 1`) are truncated `Nat` subtraction.  `f64`
(`avg_customers_on_ride`) is modelled as `ℚ`; no claim depends on float
rounding.  Rust panics (`unwrap` on a missing address, the `panic!` in the
carousel's `Idle` arm, indexing a missing carousel id) are modelled by
`Option`, and the unbounded loops (`tick`'s drain loop, recursive
component instantiation, `run`) take a fuel argument, exhaustion of which
also yields `none`.
-/

namespace MffDiscrete

/-! ### Rust `BinaryHeap`, reversed-`Ord` specialisation (min-heap on `key`) -/

section Heap

variable {E : Type}

/-- Fuelled body of `sift_up`; the recursion consumes one unit of fuel per
hop from `pos` to its parent `(pos - 1) / 2`, so any fuel `≥ pos` is
enough (see `siftUpF_congr`), and at fuel `0` the hole is already at the
root and the two branches agree. -/
def siftUpF (key : E → Nat) (x : E) : Nat → List E → Nat → Nat → List E
  | 0, l, _, pos => l.set pos x
  | fuel + 1, l, start, pos =>
    if start < pos then
      match l[(pos - 1) / 2]? with
      | some p =>
        if key x < key p then
          siftUpF key x fuel (l.set pos p) start ((pos - 1) / 2)
        else
          l.set pos x
      | none => l.set pos x
    else
      l.set pos x

/-- `sift_up` from Rust's `BinaryHeap`: the hole is at `pos` and carries
element `x`; while `start < pos` and the element is strictly greater than
the parent in the reversed `Ord` (i.e. `key x < key parent`), the parent
value moves down into the hole and the hole moves to the parent.  Finally
`x` is written at the hole.  (`siftUp_eq` shows this definition satisfies
exactly that recurrence.) -/
def siftUp (key : E → Nat) (x : E) (l : List E) (start : Nat) (pos : Nat) : List E :=
  siftUpF key x pos l start pos

/-- `BinaryHeap::push`: append, then `sift_up` with the hole at the old
length. -/
def heapPush (key : E → Nat) (l : List E) (x : E) : List E :=
  siftUp key x (l ++ [x]) 0 l.length

/-- Fuelled body of the `sift_down_to_bottom` loop; each iteration moves
the hole from `pos` to a child `> pos`, so fuel `≥ endn - pos` is enough
(see `siftDownBotF_congr`), and at fuel `0` the hole has no children in
range and the branches agree. -/
def siftDownBotF (key : E → Nat) (x : E) : Nat → List E → Nat → Nat → List E × Nat
  | 0, l, pos, _ => (l, pos)
  | fuel + 1, l, pos, endn =>
    let child := 2 * pos + 1
    if child + 1 < endn then
      let cl := l.getD child x
      let cr := l.getD (child + 1) x
      let child' := if key cr ≤ key cl then child + 1 else child
      siftDownBotF key x fuel (l.set pos (l.getD child' x)) child' endn
    else if child + 1 = endn then
      (l.set pos (l.getD child x), child)
    else
      (l, pos)

/-- The loop of Rust's `sift_down_to_bottom`: the hole at `pos` descends to
the bottom of the tree, always following the child that is greater in the
reversed `Ord` (ties pick the right child, since
`hole.get(child) <= hole.get(child + 1)` holds for equal keys).  Returns
the array together with the final hole position.  (`siftDownBot_eq` shows
this definition satisfies exactly that recurrence.) -/
def siftDownBot (key : E → Nat) (x : E) (l : List E) (pos : Nat) (endn : Nat) : List E × Nat :=
  siftDownBotF key x (endn - pos) l pos endn

/-- `BinaryHeap::pop`: remove the last element; if the heap stays
non-empty, the root is returned, the last element becomes the hole element
at the root, the hole is sifted down to the bottom and then sifted up. -/
def heapPop (key : E → Nat) (l : List E) : Option (E × List E) :=
  match l.getLast? with
  | none => none
  | some last =>
    let l' := l.dropLast
    match l'.head? with
    | none => some (last, l')
    | some root =>
      let sd := siftDownBot key last l' 0 l'.length
      some (root, siftUp key last sd.1 0 sd.2)

/-- `BinaryHeap::peek` is the head of the backing vector. -/
def heapPeek (l : List E) : Option E := l.head?

/-- Fuelled body of `sift_down_range`; fuel `≥ endn - pos` is enough (see
`siftDownRangeF_congr`), and at fuel `0` the hole is childless in range
and the branches agree. -/
def siftDownRangeF (key : E → Nat) (x : E) : Nat → List E → Nat → Nat → List E
  | 0, l, pos, _ => l.set pos x
  | fuel + 1, l, pos, endn =>
    let child := 2 * pos + 1
    if child < endn then
      let child' :=
        if child + 1 < endn ∧ key (l.getD (child + 1) x) ≤ key (l.getD child x) then
          child + 1
        else
          child
      if key x ≤ key (l.getD child' x) then
        l.set pos x
      else
        siftDownRangeF key x fuel (l.set pos (l.getD child' x)) child' endn
    else
      l.set pos x

/-- The loop of Rust's `sift_down_range` (used by heapify): the hole at
`pos` carries `x`; while there is a child, pick the greater child in the
reversed `Ord` (ties pick the right child) and stop as soon as
`x` is greater-or-equal than it (i.e. `key x ≤ key child`).
(`siftDownRange_eq` shows this definition satisfies exactly that
recurrence.) -/
def siftDownRange (key : E → Nat) (x : E) (l : List E) (pos : Nat) (endn : Nat) : List E :=
  siftDownRangeF key x (endn - pos) l pos endn

/-- The loop of `BinaryHeap::rebuild`: `sift_down` each position from
`len / 2 - 1` down to `0`. -/
def heapifyLoop (key : E → Nat) (l : List E) : Nat → List E
  | 0 => l
  | n + 1 =>
    match l[n]? with
    | some x => heapifyLoop key (siftDownRange key x l n l.length) n
    | none => heapifyLoop key l n

/-- `BinaryHeap::from(vec)`: heapify in place. -/
def heapify (key : E → Nat) (l : List E) : List E :=
  heapifyLoop key l (l.length / 2)

end Heap


/-! ### Config (`src/config.rs`) -/

structure CarouselConfig where
  id : Nat
  min_capacity : Nat
  capacity : Nat
  run_time : Nat
  wait_time : Nat
  extend_time : Nat
deriving DecidableEq, Repr

structure CustomerConfig where
  id : Nat
  arrival_time : Nat
  carousels : List Nat
deriving DecidableEq, Repr

structure SystemConfig where
  carousels : List CarouselConfig
  customers : List CustomerConfig
deriving DecidableEq, Repr

/-! ### Park message enums (`src/park/*.rs`) -/

inductive CarouselMsg
  | CustomerArrived
  | StandardWaitEnded (cycle : Nat)
  | ExtendedWaitEnded (cycle : Nat)
  | EndRide
  | Start
deriving DecidableEq, Repr

inductive CustomerMsg
  | RideStarted
  | RideEnded
deriving DecidableEq, Repr

inductive DispatcherMsg
  | Tick
deriving DecidableEq, Repr

/-- `park::Event`, the three-way envelope. -/
inductive ParkEvent
  | CustomerDispatcherEvent (e : DispatcherMsg)
  | CustomerEvent (e : CustomerMsg)
  | CarouselEvent (e : CarouselMsg)
deriving DecidableEq, Repr

/-- `impl Into<Option<customer_dispatcher::Event>> for Event`. -/
def ParkEvent.intoDispatcher : ParkEvent → Option DispatcherMsg
  | .CustomerDispatcherEvent e => some e
  | _ => none

/-- `impl Into<Option<customer::Event>> for Event`. -/
def ParkEvent.intoCustomer : ParkEvent → Option CustomerMsg
  | .CustomerEvent e => some e
  | _ => none

/-- `impl Into<Option<carousel::Event>> for Event`. -/
def ParkEvent.intoCarousel : ParkEvent → Option CarouselMsg
  | .CarouselEvent e => some e
  | _ => none

/-! ### Engine-side records (`src/discrete_system`) -/

/-- `discrete_system::Event<M>` with `M = park::Event`. -/
structure SysEvent where
  time : Nat
  to_address : Nat
  from_address : Nat
  message : ParkEvent
deriving DecidableEq, Repr

/-- The key on which the reversed `Ord` of `Event` compares. -/
def eventKey (e : SysEvent) : Nat := e.time

/-- The key on which the reversed `Ord` of `CustomerConfig` compares. -/
def configKey (c : CustomerConfig) : Nat := c.arrival_time

structure StartInfo where
  self_address : Nat
  current_time : Nat
deriving Repr

structure HandleInfo where
  self_address : Nat
  sender_address : Nat
  current_time : Nat
deriving Repr

inductive ScheduledEventAddress
  | SelfAddress
  | RemoteAddress (a : Nat)
deriving DecidableEq, Repr

structure ScheduledEvent where
  message : ParkEvent
  in_time : Nat
  address : ScheduledEventAddress
deriving DecidableEq, Repr

/-! ### Park component states -/

/-- `carousel::State`; `Idle` boxes the next state. -/
inductive CState
  | Idle (next : CState)
  | StandardWaiting
  | ExtendedWaiting
  | Starting (t : Nat)
  | Running
deriving DecidableEq, Repr

structure CustomerInfo where
  arrival_time : Nat
  address : Nat
deriving DecidableEq, Repr

structure Carousel where
  config : CarouselConfig
  state : CState
  customers_inner_queue : List CustomerInfo
  customers_outer_queue : List CustomerInfo
  customers_on_ride : List CustomerInfo
  cycle : Nat
  rides : Nat
  avg_customers_on_ride : ℚ
  max_customers_queue_len : Nat
  idle_time : Nat
  idle_started : Nat
deriving DecidableEq, Repr

/-- `customer::State`. -/
inductive CuState
  | WaitingOnCarousel (id : Nat)
  | OnCarousel (id : Nat)
  | Idle
deriving DecidableEq, Repr

structure CarouselInfo where
  id : Nat
  address : Nat
deriving DecidableEq, Repr

structure Customer where
  state : CuState
  config : CustomerConfig
  carousels : List CarouselInfo
  started_waiting_on : Nat
  number_of_rides : Nat
  total_waiting_time : Nat
  total_time : Nat
deriving DecidableEq, Repr

structure CustomerDispatcher where
  carousels : List (Nat × Nat)
  customers_configs : List CustomerConfig
deriving DecidableEq, Repr

/-- `park::Component`. -/
inductive PComponent
  | CustomerDispatcher (d : CustomerDispatcher)
  | Customer (c : Customer)
  | Carousel (c : Carousel)
deriving DecidableEq, Repr

/-! ### Effector (`src/discrete_system/effector.rs`) -/

structure Effector where
  events : List ScheduledEvent
  components : List PComponent
deriving DecidableEq, Repr

def Effector.new : Effector := { events := [], components := [] }

def Effector.schedule_in (e : Effector) (address : Nat) (in_time : Nat)
    (message : ParkEvent) : Effector :=
  { e with events := e.events ++
      [{ in_time := in_time, message := message,
         address := .RemoteAddress address }] }

def Effector.schedule_immediately (e : Effector) (address : Nat)
    (message : ParkEvent) : Effector :=
  { e with events := e.events ++
      [{ in_time := 0, message := message, address := .RemoteAddress address }] }

def Effector.schedule_in_to_self (e : Effector) (in_time : Nat)
    (message : ParkEvent) : Effector :=
  { e with events := e.events ++
      [{ in_time := in_time, message := message, address := .SelfAddress }] }

def Effector.schedule_to_self_immediately (e : Effector) (message : ParkEvent) : Effector :=
  { e with events := e.events ++
      [{ in_time := 0, message := message, address := .SelfAddress }] }

def Effector.instantiate_new_component (e : Effector) (data : PComponent) : Effector :=
  { e with components := e.components ++ [data] }

/-! ### Carousel (`src/park/carousel.rs`) -/

def Carousel.new (config : CarouselConfig) : Carousel :=
  { config := config
    state := .Idle .StandardWaiting
    cycle := 0
    customers_inner_queue := []
    customers_outer_queue := []
    customers_on_ride := []
    rides := 0
    avg_customers_on_ride := 0
    max_customers_queue_len := 0
    idle_time := 0
    idle_started := 0 }

def Carousel.start_ride (c : Carousel) (time : Nat) (eff : Effector) : Carousel × Effector :=
  ({ c with state := .Starting time, cycle := c.cycle + 1 },
   eff.schedule_in_to_self 1 (.CarouselEvent .Start))

def Carousel.do_ride (c : Carousel) (eff : Effector) : Carousel × Effector :=
  let on_ride := c.customers_inner_queue
  let eff := on_ride.foldl
    (fun e customer => e.schedule_immediately customer.address (.CustomerEvent .RideStarted)) eff
  let customers_to_move := min c.config.capacity c.customers_outer_queue.length
  let c := { c with
    state := .Running
    customers_on_ride := on_ride
    customers_inner_queue := c.customers_outer_queue.take customers_to_move
    customers_outer_queue := c.customers_outer_queue.drop customers_to_move }
  (c, eff.schedule_in_to_self (c.config.run_time - 1) (.CarouselEvent .EndRide))

def Carousel.start_standard_wait (c : Carousel) (eff : Effector) : Carousel × Effector :=
  ({ c with state := .StandardWaiting },
   eff.schedule_in_to_self c.config.wait_time (.CarouselEvent (.StandardWaitEnded c.cycle)))

def Carousel.start_extended_wait (c : Carousel) (eff : Effector) : Carousel × Effector :=
  ({ c with state := .ExtendedWaiting },
   eff.schedule_in_to_self c.config.extend_time (.CarouselEvent (.ExtendedWaitEnded c.cycle)))

def Carousel.end_ride (c : Carousel) (eff : Effector) : Carousel × Effector :=
  let c := { c with
    avg_customers_on_ride :=
      ((c.rides : ℚ) * c.avg_customers_on_ride + (c.customers_on_ride.length : ℚ)) /
        ((c.rides : ℚ) + 1)
    rides := c.rides + 1 }
  let eff := c.customers_on_ride.foldl
    (fun e infoC => e.schedule_immediately infoC.address (.CustomerEvent .RideEnded)) eff
  let c := { c with customers_on_ride := [] }
  c.start_standard_wait eff

def Carousel.start (c : Carousel) (info : StartInfo) : Carousel × Effector :=
  (c, Effector.new)

/-- The metric refresh at the top of `Carousel::handle` (line 196):
`max_customers_queue_len` is updated at every entry, whatever the
message. -/
def Carousel.handleEntry (c : Carousel) : Carousel :=
  { c with
    max_customers_queue_len :=
      max (c.customers_inner_queue.length + c.customers_outer_queue.length)
        c.max_customers_queue_len }

/-- The intake step of `Carousel::handle` (lines 198-216): a
`CustomerArrived` sender joins the inner queue if there is room (outer
otherwise), except that a carousel in `Starting(t)` with `t ≠ now` sends
it straight to the outer queue. -/
def Carousel.handleIntake (c : Carousel) (info : HandleInfo) (msg : Option CarouselMsg) :
    Carousel :=
  if msg = some .CustomerArrived then
    let customer_info : CustomerInfo :=
      { address := info.sender_address, arrival_time := info.current_time }
    let enqueue := fun (c : Carousel) =>
      if c.customers_inner_queue.length < c.config.capacity then
        { c with customers_inner_queue := c.customers_inner_queue ++ [customer_info] }
      else
        { c with customers_outer_queue := c.customers_outer_queue ++ [customer_info] }
    match c.state with
    | .Starting time =>
      if info.current_time ≠ time then
        { c with customers_outer_queue := c.customers_outer_queue ++ [customer_info] }
      else
        enqueue c
    | _ => enqueue c
  else c

/-- The mode-times-message dispatch of `Carousel::handle` (lines
218-269).  `none` models the `panic!` in the `Idle` arm.  Note that the
`Idle` arm adds `current_time - idle_started` to `idle_time` for every
message, not only `CustomerArrived`. -/
def Carousel.handleDispatch (c : Carousel) (info : HandleInfo) (msg : Option CarouselMsg) :
    Option (Carousel × Effector) :=
  let eff := Effector.new
  match c.state with
  | .Idle next_state =>
    let c := { c with idle_time := c.idle_time + (info.current_time - c.idle_started) }
    match msg with
    | some .CustomerArrived =>
      match next_state with
      | .StandardWaiting => some (c.start_standard_wait eff)
      | .ExtendedWaiting => some (c.start_extended_wait eff)
      | _ => none
    | _ => some (c, eff)
  | .StandardWaiting =>
    match msg with
    | some (.StandardWaitEnded cycle) =>
      if c.cycle = cycle then
        if c.config.min_capacity ≤ c.customers_inner_queue.length then
          some (c.start_ride info.current_time eff)
        else if c.customers_inner_queue.length = 0 then
          some ({ c with idle_started := info.current_time,
                         state := .Idle .ExtendedWaiting }, eff)
        else
          some (c.start_extended_wait eff)
      else
        some (c, eff)
    | _ => some (c, eff)
  | .ExtendedWaiting =>
    match msg with
    | some .CustomerArrived =>
      if c.config.min_capacity ≤ c.customers_inner_queue.length then
        some (c.start_ride info.current_time eff)
      else
        some (c, eff)
    | some (.ExtendedWaitEnded cycle) =>
      if c.cycle = cycle then
        some (c.start_ride info.current_time eff)
      else
        some (c, eff)
    | _ => some (c, eff)
  | .Running =>
    match msg with
    | some .EndRide => some (c.end_ride eff)
    | _ => some (c, eff)
  | .Starting _ =>
    match msg with
    | some .Start => some (c.do_ride eff)
    | _ => some (c, eff)

/-- `Carousel::handle`: refresh the queue-length metric, run the intake
step, then dispatch on mode and message. -/
def Carousel.handle (c : Carousel) (info : HandleInfo) (message : ParkEvent) :
    Option (Carousel × Effector) :=
  let msg := message.intoCarousel
  Carousel.handleDispatch (Carousel.handleIntake (Carousel.handleEntry c) info msg)
    info msg

/-! ### Customer (`src/park/customer.rs`) -/

def Customer.new (carousels : List CarouselInfo) (config : CustomerConfig) : Customer :=
  { state := .Idle
    carousels := carousels
    config := config
    started_waiting_on := 0
    number_of_rides := 0
    total_waiting_time := 0
    total_time := 0 }

def Customer.next_run (cu : Customer) (eff : Effector) (time : Nat) : Customer × Effector :=
  let cu := { cu with
    started_waiting_on := time
    total_time := time - cu.config.arrival_time }
  match cu.carousels with
  | carousel :: rest =>
    ({ cu with carousels := rest, state := .WaitingOnCarousel carousel.id },
     eff.schedule_immediately carousel.address (.CarouselEvent .CustomerArrived))
  | [] => ({ cu with state := .Idle }, eff)

def Customer.start (cu : Customer) (info : StartInfo) : Customer × Effector :=
  cu.next_run Effector.new info.current_time

def Customer.handle (cu : Customer) (info : HandleInfo) (message : ParkEvent) :
    Customer × Effector :=
  let eff := Effector.new
  let msg := message.intoCustomer
  match cu.state, msg with
  | .OnCarousel _, some .RideEnded => cu.next_run eff info.current_time
  | .WaitingOnCarousel id, some .RideStarted =>
    ({ cu with
        state := .OnCarousel id
        total_waiting_time :=
          cu.total_waiting_time + (info.current_time - cu.started_waiting_on - 1)
        number_of_rides := cu.number_of_rides + 1 }, eff)
  | _, _ => (cu, eff)

/-! ### Customer dispatcher (`src/park/customer_dispatcher.rs`) -/

def CustomerDispatcher.new (carousels : List (Nat × Nat))
    (customers_configs : List CustomerConfig) : CustomerDispatcher :=
  { carousels := carousels, customers_configs := heapify configKey customers_configs }

def CustomerDispatcher.schedule_next (d : CustomerDispatcher) (eff : Effector)
    (current_time : Nat) : Effector :=
  match heapPeek d.customers_configs with
  | some config =>
    eff.schedule_in_to_self (config.arrival_time - current_time)
      (.CustomerDispatcherEvent .Tick)
  | none => eff

def CustomerDispatcher.start (d : CustomerDispatcher) (info : StartInfo) :
    CustomerDispatcher × Effector :=
  (d, d.schedule_next Effector.new 0)

/-- The id-to-address resolution done when a `Customer` is built
(`self.carousels[id]` panics on a missing id, hence `Option`). -/
def resolveCarousels (carousels : List (Nat × Nat)) : List Nat → Option (List CarouselInfo)
  | [] => some []
  | id :: rest =>
    match (carousels.find? (fun p => p.1 = id)).map Prod.snd with
    | some addr =>
      match resolveCarousels carousels rest with
      | some infos => some ({ id := id, address := addr } :: infos)
      | none => none
    | none => none

/-- Fuelled body of the dispatcher's `while` loop; each iteration pops one
config off the heap, so fuel `≥ heap.length` is enough (see
`dispatchLoopF_congr`), and at fuel `0` the heap is empty and the
branches agree. -/
def dispatchLoopF (carousels : List (Nat × Nat)) (current_time : Nat) :
    Nat → List CustomerConfig → Effector → Option (List CustomerConfig × Effector)
  | 0, heap, eff => some (heap, eff)
  | fuel + 1, heap, eff =>
    match heapPeek heap with
    | some config =>
      if config.arrival_time = current_time then
        match heapPop configKey heap with
        | some (config, heap') =>
          match resolveCarousels carousels config.carousels with
          | some infos =>
            dispatchLoopF carousels current_time fuel heap'
              (eff.instantiate_new_component (.Customer (Customer.new infos config)))
          | none => none
        | none => none
      else
        some (heap, eff)
    | none => some (heap, eff)

/-- The `while` loop in `CustomerDispatcher::handle`: pop configs whose
`arrival_time` equals `current_time`, instantiating one `Customer` each.
(`dispatchLoop_eq` shows this definition satisfies exactly that
recurrence.) -/
def dispatchLoop (carousels : List (Nat × Nat)) (current_time : Nat)
    (heap : List CustomerConfig) (eff : Effector) :
    Option (List CustomerConfig × Effector) :=
  dispatchLoopF carousels current_time heap.length heap eff

def CustomerDispatcher.handle (d : CustomerDispatcher) (info : HandleInfo)
    (message : ParkEvent) : Option (CustomerDispatcher × Effector) :=
  let eff := Effector.new
  let msg := message.intoDispatcher
  match msg with
  | some .Tick =>
    match dispatchLoop d.carousels info.current_time d.customers_configs eff with
    | some r =>
      let d := { d with customers_configs := r.1 }
      some (d, d.schedule_next r.2 info.current_time)
    | none => none
  | none => some (d, eff)

/-! ### Park component dispatch (`src/park/mod.rs`) -/

def PComponent.start : PComponent → StartInfo → PComponent × Effector
  | .Carousel c, info =>
    let r := c.start info
    (.Carousel r.1, r.2)
  | .Customer cu, info =>
    let r := cu.start info
    (.Customer r.1, r.2)
  | .CustomerDispatcher d, info =>
    let r := d.start info
    (.CustomerDispatcher r.1, r.2)

def PComponent.handle : PComponent → HandleInfo → ParkEvent → Option (PComponent × Effector)
  | .Carousel c, info, m => (c.handle info m).map fun r => (.Carousel r.1, r.2)
  | .Customer cu, info, m =>
    let r := cu.handle info m
    some (.Customer r.1, r.2)
  | .CustomerDispatcher d, info, m => (d.handle info m).map fun r => (.CustomerDispatcher r.1, r.2)

/-! ### The engine (`src/discrete_system/mod.rs`) -/

structure DiscreteSystem where
  current_time : Nat
  components : List (Nat × PComponent)
  events : List SysEvent
  address_generator : Nat
deriving DecidableEq, Repr

def DiscreteSystem.new : DiscreteSystem :=
  { current_time := 0, components := [], events := [], address_generator := 0 }

/-- `register_component`: assign the next address and store the component
(the `HashMap` is modelled as an association list with unique keys). -/
def DiscreteSystem.register_component (s : DiscreteSystem) (c : PComponent) :
    Nat × DiscreteSystem :=
  (s.address_generator,
   { s with
      components := s.components ++ [(s.address_generator, c)]
      address_generator := s.address_generator + 1 })

def lookupComponent (s : DiscreteSystem) (addr : Nat) : Option PComponent :=
  (s.components.find? (fun p => p.1 = addr)).map Prod.snd

def updateComponent (s : DiscreteSystem) (addr : Nat) (c : PComponent) : DiscreteSystem :=
  { s with components := s.components.map fun p => if p.1 = addr then (p.1, c) else p }

/-- The event-scheduling half of `apply_effector`: resolve each target and
push `{time: current_time + in_time, …}` onto the event heap, in effector
order. -/
def enqueueAll (s : DiscreteSystem) (from_address : Nat) (evs : List ScheduledEvent) :
    DiscreteSystem :=
  { s with events := evs.foldl (fun h ev =>
      heapPush eventKey h
        { time := s.current_time + ev.in_time
          to_address :=
            match ev.address with
            | .SelfAddress => from_address
            | .RemoteAddress remote => remote
          from_address := from_address
          message := ev.message }) s.events }

/-- The component half of `apply_effector`, fused with `start_component`:
each new component is registered, its `start` runs, and its own effector is
applied recursively (events first, then nested components).  `fuel` bounds
the instantiation depth; the park components never nest more than one
level. -/
def instantiateComponents : Nat → DiscreteSystem → List PComponent → Option DiscreteSystem
  | _, s, [] => some s
  | 0, _, _ :: _ => none
  | Nat.succ fuel, s, c :: rest =>
    let rc := s.register_component c
    match lookupComponent rc.2 rc.1 with
    | none => none
    | some comp =>
      let r := comp.start { self_address := rc.1, current_time := rc.2.current_time }
      let s2 := updateComponent rc.2 rc.1 r.1
      let s3 := enqueueAll s2 rc.1 r.2.events
      match instantiateComponents fuel s3 r.2.components with
      | none => none
      | some s4 => instantiateComponents fuel s4 rest

/-- `apply_effector(from_address, effector)`: events first, then new
components. -/
def applyEffector (fuel : Nat) (s : DiscreteSystem) (from_address : Nat) (eff : Effector) :
    Option DiscreteSystem :=
  instantiateComponents fuel (enqueueAll s from_address eff.events) eff.components

/-- `start_component(address)`. -/
def startComponentAt (fuel : Nat) (s : DiscreteSystem) (addr : Nat) : Option DiscreteSystem :=
  match lookupComponent s addr with
  | none => none
  | some comp =>
    let r := comp.start { self_address := addr, current_time := s.current_time }
    applyEffector fuel (updateComponent s addr r.1) addr r.2

/-- The drain loop of `tick`: while the head of the heap carries
`current_time`, pop it, record it, handle it at its target and apply the
resulting effector before the next pop. -/
def tickLoop : Nat → DiscreteSystem → List SysEvent → Option (List SysEvent × DiscreteSystem)
  | 0, s, acc =>
    match heapPeek s.events with
    | none => some (acc, s)
    | some e => if e.time = s.current_time then none else some (acc, s)
  | Nat.succ fuel, s, acc =>
    match heapPeek s.events with
    | none => some (acc, s)
    | some e =>
      if e.time = s.current_time then
        match heapPop eventKey s.events with
        | none => none
        | some (event, rest) =>
          let s1 := { s with events := rest }
          match lookupComponent s1 event.to_address with
          | none => none
          | some comp =>
            match comp.handle
                { self_address := event.to_address
                  sender_address := event.from_address
                  current_time := s1.current_time } event.message with
            | none => none
            | some r =>
              let s2 := updateComponent s1 event.to_address r.1
              match applyEffector fuel s2 event.to_address r.2 with
              | none => none
              | some s3 => tickLoop fuel s3 (acc ++ [event])
      else
        some (acc, s)

/-- `tick()`: empty queue returns the empty list and leaves the state
untouched; otherwise `current_time` becomes the head event's time and the
drain loop runs. -/
def DiscreteSystem.tick (fuel : Nat) (s : DiscreteSystem) :
    Option (List SysEvent × DiscreteSystem) :=
  match heapPeek s.events with
  | none => some ([], s)
  | some e => tickLoop fuel { s with current_time := e.time } []

/-- `start()`: run `start_component` on every registered component in the
(unspecified, `HashMap`-iteration) order given by `order`, then flush a
zero-time startup tick.  The events drained by that tick are discarded, as
in the source. -/
def startWithOrder (fuel : Nat) (s : DiscreteSystem) (order : List Nat) :
    Option DiscreteSystem :=
  match order.foldlM (fun st addr => startComponentAt fuel st addr) s with
  | none => none
  | some s =>
    match heapPeek s.events with
    | some e =>
      if e.time = 0 then
        match s.tick fuel with
        | some r => some r.2
        | none => none
      else
        some s
    | none => some s

def DiscreteSystem.has_events (s : DiscreteSystem) : Bool := !s.events.isEmpty

/-! ### Bootstrap and run (`src/main.rs`) -/

/-- `validate_config`. -/
def ValidConfig (config : SystemConfig) : Prop :=
  (config.carousels.map (fun c => c.id)).Nodup ∧
  (∀ c ∈ config.carousels,
    1 ≤ c.run_time ∧ 1 ≤ c.extend_time ∧ 1 ≤ c.wait_time ∧
    1 ≤ c.capacity ∧ 1 ≤ c.min_capacity ∧ c.min_capacity ≤ c.capacity) ∧
  (∀ cu ∈ config.customers, ∀ id ∈ cu.carousels,
    id ∈ config.carousels.map (fun c => c.id))

instance (config : SystemConfig) : Decidable (ValidConfig config) := by
  unfold ValidConfig
  infer_instance

/-- `bootstrap_system`: validate, register the carousels in config order
(collecting the id-to-address map), register the dispatcher, and `start`.
`order` is the `HashMap` iteration order used by `start`. -/
def bootstrap_system (fuel : Nat) (config : SystemConfig) (order : List Nat) :
    Option DiscreteSystem :=
  if ValidConfig config then
    let reg := config.carousels.foldl
      (fun (p : DiscreteSystem × List (Nat × Nat)) cfg =>
        let rc := p.1.register_component (.Carousel (Carousel.new cfg))
        (rc.2, p.2 ++ [(cfg.id, rc.1)]))
      (DiscreteSystem.new, [])
    let rc2 := reg.1.register_component
      (.CustomerDispatcher (CustomerDispatcher.new reg.2 config.customers))
    startWithOrder fuel rc2.2 order
  else
    none

/-- The loop of `run_local`: `tick` while events remain, collecting each
tick's drained events. -/
def runTrace : Nat → DiscreteSystem → Option (List (List SysEvent) × DiscreteSystem)
  | 0, s => if s.events.isEmpty then some ([], s) else none
  | Nat.succ fuel, s =>
    if s.events.isEmpty then
      some ([], s)
    else
      match s.tick (Nat.succ fuel) with
      | none => none
      | some r =>
        match runTrace fuel r.2 with
        | none => none
        | some rr => some (r.1 :: rr.1, rr.2)

/-- Bootstrap a configuration and run it to completion, producing the
per-tick drained-event trace. -/
def runConfig (fuel : Nat) (config : SystemConfig) (order : List Nat) :
    Option (List (List SysEvent) × DiscreteSystem) :=
  match bootstrap_system fuel config order with
  | none => none
  | some s => runTrace fuel s

/-! ### Helper views and concrete configurations used in the theorems -/

/-- Iterate `tick` a given number of times. -/
def iterTick (fuel : Nat) : Nat → DiscreteSystem → Option DiscreteSystem
  | 0, s => some s
  | n + 1, s =>
    match s.tick fuel with
    | some r => iterTick fuel n r.2
    | none => none

def carouselAt (s : DiscreteSystem) (a : Nat) : Option Carousel :=
  match lookupComponent s a with
  | some (.Carousel c) => some c
  | _ => none

def customerAt (s : DiscreteSystem) (a : Nat) : Option Customer :=
  match lookupComponent s a with
  | some (.Customer c) => some c
  | _ => none

/-- The S1 scenario of the spec: one carousel, one customer. -/
def s1Config : SystemConfig :=
  { carousels := [{ id := 1, min_capacity := 1, capacity := 1, run_time := 10,
                    wait_time := 5, extend_time := 3 }]
    customers := [{ id := 1, arrival_time := 0, carousels := [1] }] }

/-- The registration-order (`HashMap`-iteration) list used for concrete
runs: carousel first (address 0), dispatcher second (address 1). -/
def s1Order : List Nat := [0, 1]

def s1Boot : Option DiscreteSystem := bootstrap_system 30 s1Config s1Order

def s1After (n : Nat) : Option DiscreteSystem :=
  match s1Boot with
  | some s => iterTick 30 n s
  | none => none

/-- Configuration witnessing a stale wait-end event that does change
carousel state: `min_capacity 2`, a customer at `t = 0` and one at
`t = 6`; the second arrival starts the ride early during the extended
wait, leaving `ExtendedWaitEnded 0` pending at `t = 7` as a stale event
(cycle is `1` by then). -/
def staleConfig : SystemConfig :=
  { carousels := [{ id := 1, min_capacity := 2, capacity := 5, run_time := 10,
                    wait_time := 5, extend_time := 2 }]
    customers := [{ id := 1, arrival_time := 0, carousels := [1] },
                  { id := 2, arrival_time := 6, carousels := [1] }] }

def staleState : Option DiscreteSystem :=
  match bootstrap_system 30 staleConfig s1Order with
  | some s => iterTick 30 2 s
  | none => none

/-- An event carrying time `5` whose `from_address` tags the insertion
order, used to exhibit the non-FIFO pop order among equal-time events. -/
def taggedEvent (i : Nat) : SysEvent :=
  { time := 5, to_address := 0, from_address := i,
    message := .CustomerEvent .RideStarted }

/-- Five equal-time events pushed in order 1, 2, 3, 4, 5. -/
def fifoHeap : List SysEvent :=
  [taggedEvent 1, taggedEvent 2, taggedEvent 3, taggedEvent 4,
   taggedEvent 5].foldl (heapPush eventKey) []

/-- An engine holding one idle customer (which ignores every message) and
the five equal-time events above. -/
def fifoSystem : DiscreteSystem :=
  { current_time := 0
    components := [(0, .Customer (Customer.new []
      { id := 7, arrival_time := 0, carousels := [] }))]
    events := fifoHeap
    address_generator := 1 }

/-- What `Carousel::handle` does to a carousel on a message that triggers
no transition (stale wait-end events, messages of the wrong envelope
variant): `max_customers_queue_len` is refreshed at entry, and in the
`Idle` state `idle_time` accrues; everything else is untouched and the
effector stays empty. -/
def Carousel.metricRefresh (c : Carousel) (now : Nat) : Carousel :=
  let c := { c with
    max_customers_queue_len :=
      max (c.customers_inner_queue.length + c.customers_outer_queue.length)
        c.max_customers_queue_len }
  match c.state with
  | .Idle _ => { c with idle_time := c.idle_time + (now - c.idle_started) }
  | _ => c

def staleCarousel : Option Carousel :=
  match staleState with
  | some s => carouselAt s 0
  | none => none

/-- A minimal valid carousel config used as a concrete witness input. -/
def tinyCfg : CarouselConfig :=
  { id := 1, min_capacity := 1, capacity := 1, run_time := 1, wait_time := 1,
    extend_time := 1 }

/-- The S1 carousel after `n` ticks. -/
def s1CarouselAfter (n : Nat) : Option Carousel :=
  match s1After n with
  | some s => carouselAt s 0
  | none => none

/-- The association list produced by registering the carousels of a
config at consecutive addresses starting from `g` (characterises the
bootstrap registration fold). -/
def regList (g : Nat) : List CarouselConfig → List (Nat × PComponent)
  | [] => []
  | cfg :: rest => (g, .Carousel (Carousel.new cfg)) :: regList (g + 1) rest

/-- The `staleConfig` carousel after one tick (at `t = 5` it has entered
`ExtendedWaiting` with one customer queued). -/
def staleCar1 : Option Carousel :=
  match bootstrap_system 30 staleConfig s1Order with
  | some s0 =>
    match iterTick 30 1 s0 with
    | some s => carouselAt s 0
    | none => none
  | none => none

/-! ### Heap correctness -/

section HeapProp

variable {E : Type}

theorem siftUpF_congr (key : E → Nat) (x : E) :
    ∀ (f1 f2 : Nat) (l : List E) (start pos : Nat), pos ≤ f1 → pos ≤ f2 →
      siftUpF key x f1 l start pos = siftUpF key x f2 l start pos := by
  intro f1
  induction f1 with
  | zero =>
    intro f2 l start pos h1 h2
    have : pos = 0 := by omega
    subst this
    cases f2 with
    | zero => rfl
    | succ g => simp [siftUpF]
  | succ g ih =>
    intro f2 l start pos h1 h2
    cases f2 with
    | zero =>
      have : pos = 0 := by omega
      subst this
      simp [siftUpF]
    | succ g2 =>
      simp only [siftUpF]
      split
      · rename_i hlt
        cases hp : l[(pos - 1) / 2]? with
        | none => rfl
        | some p =>
          simp only
          split
          · exact ih g2 (l.set pos p) start ((pos - 1) / 2) (by omega) (by omega)
          · rfl
      · rfl

/-- The defining recurrence of `sift_up`, matching the Rust source. -/
theorem siftUp_eq (key : E → Nat) (x : E) (l : List E) (start pos : Nat) :
    siftUp key x l start pos =
      if start < pos then
        match l[(pos - 1) / 2]? with
        | some p =>
          if key x < key p then
            siftUp key x (l.set pos p) start ((pos - 1) / 2)
          else
            l.set pos x
        | none => l.set pos x
      else
        l.set pos x := by
  unfold siftUp
  cases pos with
  | zero => simp [siftUpF]
  | succ n =>
    simp only [siftUpF]
    split
    · cases hp : l[(n + 1 - 1) / 2]? with
      | none => rfl
      | some p =>
        simp only
        split
        · exact siftUpF_congr key x n ((n + 1 - 1) / 2) _ _ _ (by omega) (by omega)
        · rfl
    · rfl

theorem siftDownBotF_congr (key : E → Nat) (x : E) :
    ∀ (f1 f2 : Nat) (l : List E) (pos endn : Nat), endn - pos ≤ f1 → endn - pos ≤ f2 →
      siftDownBotF key x f1 l pos endn = siftDownBotF key x f2 l pos endn := by
  intro f1
  induction f1 with
  | zero =>
    intro f2 l pos endn h1 h2
    cases f2 with
    | zero => rfl
    | succ g =>
      simp only [siftDownBotF]
      have hc1 : ¬(2 * pos + 1 + 1 < endn) := by omega
      have hc2 : ¬(2 * pos + 1 + 1 = endn) := by omega
      simp [hc1, hc2]
  | succ g ih =>
    intro f2 l pos endn h1 h2
    cases f2 with
    | zero =>
      simp only [siftDownBotF]
      have hc1 : ¬(2 * pos + 1 + 1 < endn) := by omega
      have hc2 : ¬(2 * pos + 1 + 1 = endn) := by omega
      simp [hc1, hc2]
    | succ g2 =>
      simp only [siftDownBotF]
      by_cases hc : 2 * pos + 1 + 1 < endn
      · simp only [if_pos hc]
        apply ih
        · split <;> omega
        · split <;> omega
      · simp [hc]

/-- The defining recurrence of the `sift_down_to_bottom` loop, matching
the Rust source. -/
theorem siftDownBot_eq (key : E → Nat) (x : E) (l : List E) (pos endn : Nat) :
    siftDownBot key x l pos endn =
      if 2 * pos + 1 + 1 < endn then
        siftDownBot key x
          (l.set pos (l.getD
            (if key (l.getD (2 * pos + 1 + 1) x) ≤ key (l.getD (2 * pos + 1) x) then
              2 * pos + 1 + 1 else 2 * pos + 1) x))
          (if key (l.getD (2 * pos + 1 + 1) x) ≤ key (l.getD (2 * pos + 1) x) then
            2 * pos + 1 + 1 else 2 * pos + 1) endn
      else if 2 * pos + 1 + 1 = endn then
        (l.set pos (l.getD (2 * pos + 1) x), 2 * pos + 1)
      else
        (l, pos) := by
  unfold siftDownBot
  cases hf : endn - pos with
  | zero =>
    have hc1 : ¬(2 * pos + 1 + 1 < endn) := by omega
    have hc2 : ¬(2 * pos + 1 + 1 = endn) := by omega
    simp only [siftDownBotF, if_neg hc1, if_neg hc2]
  | succ g =>
    simp only [siftDownBotF]
    by_cases hc : 2 * pos + 1 + 1 < endn
    · simp only [if_pos hc]
      apply siftDownBotF_congr
      · split <;> omega
      · split <;> omega
    · simp [hc]

theorem siftDownRangeF_congr (key : E → Nat) (x : E) :
    ∀ (f1 f2 : Nat) (l : List E) (pos endn : Nat), endn - pos ≤ f1 → endn - pos ≤ f2 →
      siftDownRangeF key x f1 l pos endn = siftDownRangeF key x f2 l pos endn := by
  intro f1
  induction f1 with
  | zero =>
    intro f2 l pos endn h1 h2
    cases f2 with
    | zero => rfl
    | succ g =>
      simp only [siftDownRangeF]
      have hc1 : ¬(2 * pos + 1 < endn) := by omega
      simp [hc1]
  | succ g ih =>
    intro f2 l pos endn h1 h2
    cases f2 with
    | zero =>
      simp only [siftDownRangeF]
      have hc1 : ¬(2 * pos + 1 < endn) := by omega
      simp [hc1]
    | succ g2 =>
      simp only [siftDownRangeF]
      by_cases hc : 2 * pos + 1 < endn
      · simp only [if_pos hc]
        split
        · split
          · rfl
          · exact ih _ _ _ _ (by omega) (by omega)
        · split
          · rfl
          · exact ih _ _ _ _ (by omega) (by omega)
      · simp [hc]

/-- The defining recurrence of the `sift_down_range` loop, matching the
Rust source. -/
theorem siftDownRange_eq (key : E → Nat) (x : E) (l : List E) (pos endn : Nat) :
    siftDownRange key x l pos endn =
      if 2 * pos + 1 < endn then
        (if key x ≤ key (l.getD
            (if 2 * pos + 1 + 1 < endn ∧
                key (l.getD (2 * pos + 1 + 1) x) ≤ key (l.getD (2 * pos + 1) x) then
              2 * pos + 1 + 1 else 2 * pos + 1) x) then
          l.set pos x
        else
          siftDownRange key x
            (l.set pos (l.getD
              (if 2 * pos + 1 + 1 < endn ∧
                  key (l.getD (2 * pos + 1 + 1) x) ≤ key (l.getD (2 * pos + 1) x) then
                2 * pos + 1 + 1 else 2 * pos + 1) x))
            (if 2 * pos + 1 + 1 < endn ∧
                key (l.getD (2 * pos + 1 + 1) x) ≤ key (l.getD (2 * pos + 1) x) then
              2 * pos + 1 + 1 else 2 * pos + 1) endn)
      else
        l.set pos x := by
  unfold siftDownRange
  cases hf : endn - pos with
  | zero =>
    have hc1 : ¬(2 * pos + 1 < endn) := by omega
    simp only [siftDownRangeF, if_neg hc1]
  | succ g =>
    simp only [siftDownRangeF]
    by_cases hc : 2 * pos + 1 < endn
    · simp only [if_pos hc]
      split
      · split
        · rfl
        · exact siftDownRangeF_congr key x _ _ _ _ _ (by omega) (by omega)
      · split
        · rfl
        · exact siftDownRangeF_congr key x _ _ _ _ _ (by omega) (by omega)
    · simp [hc]

theorem siftUp_length (key : E → Nat) (x : E) (l : List E) (start pos : Nat) :
    (siftUp key x l start pos).length = l.length := by
  rw [siftUp_eq]
  split
  · split
    · split
      · rw [siftUp_length]
        simp
      · simp
    · simp
  · simp
termination_by pos
decreasing_by omega

theorem siftDownBot_length (key : E → Nat) (x : E) (l : List E) (pos endn : Nat) :
    (siftDownBot key x l pos endn).1.length = l.length := by
  rw [siftDownBot_eq]
  split
  · rw [siftDownBot_length]
    simp
  · split <;> simp
termination_by endn - pos
decreasing_by split <;> omega

theorem heapPush_length (key : E → Nat) (l : List E) (x : E) :
    (heapPush key l x).length = l.length + 1 := by
  rw [heapPush, siftUp_length]
  simp

theorem heapPop_length (key : E → Nat) (l : List E) (e : E) (l' : List E)
    (h : heapPop key l = some (e, l')) : l'.length + 1 = l.length := by
  unfold heapPop at h
  cases hl : l.getLast? with
  | none => rw [hl] at h; exact absurd h (by simp)
  | some last =>
    rw [hl] at h
    dsimp only at h
    have hne : l ≠ [] := by
      intro he
      rw [he] at hl
      simp at hl
    cases hh : l.dropLast.head? with
    | none =>
      rw [hh] at h
      simp only [Option.some.injEq, Prod.mk.injEq] at h
      obtain ⟨-, rfl⟩ := h
      have : l.dropLast.length = l.length - 1 := by simp
      have hlen : 1 ≤ l.length := by
        cases l with
        | nil => exact absurd rfl hne
        | cons a t => simp
      omega
    | some root =>
      rw [hh] at h
      simp only [Option.some.injEq, Prod.mk.injEq] at h
      have h2 := h.2
      have hlen : 1 ≤ l.length := by
        cases l with
        | nil => exact absurd rfl hne
        | cons a t => simp
      have : l'.length = l.dropLast.length := by
        rw [← h2, siftUp_length, siftDownBot_length]
      simp at this
      omega


/-- The binary-heap shape property.  Through the reversed `Ord`, Rust's
max-heap on `Event` is a min-heap on the `key` (= `time`): every parent
key is at most each child key. -/
def heapProp (key : E → Nat) (l : List E) : Prop :=
  ∀ i j a b, (j = 2 * i + 1 ∨ j = 2 * i + 2) → l[i]? = some a → l[j]? = some b →
    key a ≤ key b

theorem heapProp_nil (key : E → Nat) : heapProp key [] := by
  intro i j a b hj hi hb
  simp at hi

theorem heapProp_of_subsingleton (key : E → Nat) {l : List E} (h : l.length ≤ 1) :
    heapProp key l := by
  intro i j a b hj hi hb
  have := (List.getElem?_eq_some.mp hb).1
  omega

/-- In a heap, the root is a minimal element. -/
theorem heapProp_root_le (key : E → Nat) {l : List E} (hp : heapProp key l) {r : E}
    (hr : l[0]? = some r) (j : Nat) (b : E) (hb : l[j]? = some b) : key r ≤ key b := by
  rcases Nat.eq_zero_or_pos j with hj | hj
  · subst hj
    rw [hr] at hb
    cases hb
    exact Nat.le_refl _
  · have hjl : j < l.length := (List.getElem?_eq_some.mp hb).1
    have hpl : (j - 1) / 2 < l.length := by omega
    have hpair : j = 2 * ((j - 1) / 2) + 1 ∨ j = 2 * ((j - 1) / 2) + 2 := by omega
    have hip := List.getElem?_eq_getElem hpl
    exact Nat.le_trans (heapProp_root_le key hp hr ((j - 1) / 2) _ hip)
      (hp _ _ _ _ hpair hip hb)
termination_by j
decreasing_by omega

theorem mem_siftUp (key : E → Nat) {x : E} {l : List E} {start pos : Nat} {y : E}
    (hy : y ∈ siftUp key x l start pos) : y = x ∨ y ∈ l := by
  rw [siftUp_eq] at hy
  split at hy
  · split at hy
    · rename_i p hp
      split at hy
      · rcases mem_siftUp key hy with h | h
        · exact Or.inl h
        · rcases List.mem_or_eq_of_mem_set h with h | h
          · exact Or.inr h
          · exact Or.inr (h ▸ List.getElem?_mem hp)
      · rcases List.mem_or_eq_of_mem_set hy with h | h
        · exact Or.inr h
        · exact Or.inl h
    · rcases List.mem_or_eq_of_mem_set hy with h | h
      · exact Or.inr h
      · exact Or.inl h
  · rcases List.mem_or_eq_of_mem_set hy with h | h
    · exact Or.inr h
    · exact Or.inl h
termination_by pos
decreasing_by omega

theorem getD_mem_or (l : List E) (i : Nat) (x : E) : l.getD i x ∈ l ∨ l.getD i x = x := by
  cases h : l[i]? with
  | none => right; simp [List.getD_eq_getElem?_getD, h]
  | some v =>
    left
    have := List.getElem?_mem h
    simpa [List.getD_eq_getElem?_getD, h]

theorem mem_siftDownBot (key : E → Nat) {x : E} {l : List E} {pos endn : Nat} {y : E}
    (hy : y ∈ (siftDownBot key x l pos endn).1) : y = x ∨ y ∈ l := by
  rw [siftDownBot_eq] at hy
  split at hy
  · rcases mem_siftDownBot key hy with h | h
    · exact Or.inl h
    · rcases List.mem_or_eq_of_mem_set h with h | h
      · exact Or.inr h
      · rcases getD_mem_or l _ x with hm | hm
        · exact Or.inr (h ▸ hm)
        · exact Or.inl (h.trans hm)
  · split at hy
    · simp only at hy
      rcases List.mem_or_eq_of_mem_set hy with h | h
      · exact Or.inr h
      · rcases getD_mem_or l _ x with hm | hm
        · exact Or.inr (h ▸ hm)
        · exact Or.inl (h.trans hm)
    · exact Or.inr hy
termination_by endn - pos
decreasing_by split <;> omega

theorem mem_heapPush (key : E → Nat) {l : List E} {x y : E}
    (hy : y ∈ heapPush key l x) : y = x ∨ y ∈ l := by
  rcases mem_siftUp key hy with h | h
  · exact Or.inl h
  · rcases List.mem_append.mp h with h | h
    · exact Or.inr h
    · exact Or.inl (by simpa using h)

theorem head?_of_dropLast_head? {l : List E} {r : E} (h : l.dropLast.head? = some r) :
    l.head? = some r := by
  cases l with
  | nil => simp at h
  | cons a t =>
    cases t with
    | nil => simp at h
    | cons b u =>
      simp only [List.dropLast_cons₂, List.head?_cons] at h ⊢
      exact h

/-- `pop` returns the root (the head of the backing vector). -/
theorem heapPop_head (key : E → Nat) {l : List E} {e : E} {l' : List E}
    (h : heapPop key l = some (e, l')) : l.head? = some e := by
  unfold heapPop at h
  cases hl : l.getLast? with
  | none => rw [hl] at h; exact absurd h (by simp)
  | some last =>
    rw [hl] at h
    dsimp only at h
    cases hh : l.dropLast.head? with
    | none =>
      rw [hh] at h
      simp only [Option.some.injEq, Prod.mk.injEq] at h
      obtain ⟨rfl, -⟩ := h
      have hne : l ≠ [] := by intro he; rw [he] at hl; simp at hl
      have h1 : l.dropLast = [] := List.head?_eq_none_iff.mp hh
      have : l.length ≤ 1 := by
        have := congrArg List.length h1
        simp at this
        omega
      cases l with
      | nil => simp at hl
      | cons a t =>
        cases t with
        | nil =>
          simp at hl
          simp [hl]
        | cons b u => simp at this
    | some root =>
      rw [hh] at h
      simp only [Option.some.injEq, Prod.mk.injEq] at h
      obtain ⟨rfl, -⟩ := h
      exact head?_of_dropLast_head? hh

theorem heapPop_mem (key : E → Nat) {l : List E} {e : E} {l' : List E}
    (h : heapPop key l = some (e, l')) : e ∈ l := by
  have := heapPop_head key h
  exact List.mem_of_mem_head? (by rw [this]; rfl)

theorem heapPop_subset (key : E → Nat) {l : List E} {e : E} {l' : List E}
    (h : heapPop key l = some (e, l')) : ∀ y ∈ l', y ∈ l := by
  intro y hy
  unfold heapPop at h
  cases hl : l.getLast? with
  | none => rw [hl] at h; exact absurd h (by simp)
  | some last =>
    have hlast : last ∈ l := List.mem_of_mem_getLast? hl
    rw [hl] at h
    dsimp only at h
    cases hh : l.dropLast.head? with
    | none =>
      rw [hh] at h
      simp only [Option.some.injEq, Prod.mk.injEq] at h
      obtain ⟨-, rfl⟩ := h
      exact List.dropLast_subset l hy
    | some root =>
      rw [hh] at h
      simp only [Option.some.injEq, Prod.mk.injEq] at h
      obtain ⟨-, rfl⟩ := h
      rcases mem_siftUp key hy with h1 | h1
      · exact h1 ▸ hlast
      · rcases mem_siftDownBot key h1 with h2 | h2
        · exact h2 ▸ hlast
        · exact List.dropLast_subset l h2
theorem getElem?_of_mem' {l : List E} {a : E} (h : a ∈ l) : ∃ i : Nat, l[i]? = some a := by
  obtain ⟨i, hi⟩ := List.get_of_mem h
  exact ⟨i, by rw [List.getElem?_eq_getElem i.isLt]; simp [← hi, List.get_eq_getElem]⟩

/-- `sift_up` from position `pos` (start `0`) restores the heap property.
`hA`: the array with `x` written at the hole is a heap except possibly at
pairs whose child is the hole.  `hB`: the hole's children are bounded
below by the hole's parent. -/
theorem siftUp_heapProp (key : E → Nat) (x : E) (l : List E) (pos : Nat)
    (hpos : pos < l.length)
    (hA : ∀ i j a b, (j = 2 * i + 1 ∨ j = 2 * i + 2) → j ≠ pos →
        (l.set pos x)[i]? = some a → (l.set pos x)[j]? = some b → key a ≤ key b)
    (hB : 0 < pos → ∀ j b, (j = 2 * pos + 1 ∨ j = 2 * pos + 2) → l[j]? = some b →
        ∀ p, l[(pos - 1) / 2]? = some p → key p ≤ key b) :
    heapProp key (siftUp key x l 0 pos) := by
  rw [siftUp_eq]
  split
  · rename_i hpos0
    split
    · rename_i p hpp
      have hpplt : (pos - 1) / 2 < l.length := by omega
      have hppx : (pos - 1) / 2 < pos := by omega
      have hchild : pos = 2 * ((pos - 1) / 2) + 1 ∨ pos = 2 * ((pos - 1) / 2) + 2 := by
        omega
      split
      · rename_i hlt
        apply siftUp_heapProp key x (l.set pos p) ((pos - 1) / 2)
          (by simp; omega)
        · -- hA for the moved-up configuration
          intro i j a b hpair hjne hia hjb
          have hMpp : ((l.set pos p).set ((pos - 1) / 2) x)[(pos - 1) / 2]? = some x :=
            List.getElem?_set_eq_of_lt x (by simp; omega)
          have hMpos : ((l.set pos p).set ((pos - 1) / 2) x)[pos]? = some p := by
            rw [List.getElem?_set_ne (by omega)]
            exact List.getElem?_set_eq_of_lt p hpos
          have hMother : ∀ k, k ≠ pos → k ≠ (pos - 1) / 2 →
              ((l.set pos p).set ((pos - 1) / 2) x)[k]? = l[k]? := by
            intro k h1 h2
            rw [List.getElem?_set_ne (by omega), List.getElem?_set_ne (by omega)]
          have hLpp : (l.set pos x)[(pos - 1) / 2]? = l[(pos - 1) / 2]? :=
            List.getElem?_set_ne (by omega)
          have hLother : ∀ k, k ≠ pos → (l.set pos x)[k]? = l[k]? := by
            intro k h1
            exact List.getElem?_set_ne (by omega)
          by_cases hj : j = pos
          · have hieq : i = (pos - 1) / 2 := by omega
            rw [hieq, hMpp] at hia
            rw [hj, hMpos] at hjb
            cases hia
            cases hjb
            exact Nat.le_of_lt hlt
          · by_cases hi2 : i = pos
            · rw [hi2, hMpos] at hia
              cases hia
              have hjgt : j ≠ (pos - 1) / 2 := by omega
              rw [hMother j hj hjgt] at hjb
              rw [hi2] at hpair
              exact hB hpos0 j b hpair hjb p hpp
            · by_cases hi3 : i = (pos - 1) / 2
              · rw [hi3, hMpp] at hia
                cases hia
                have hjgt : j ≠ (pos - 1) / 2 := by omega
                rw [hMother j hj hjgt] at hjb
                refine Nat.le_trans (Nat.le_of_lt hlt) ?_
                rw [hi3] at hpair
                exact hA _ j p b hpair hj (by rw [hLpp]; exact hpp)
                  (by rw [hLother j hj]; exact hjb)
              · have hjne2 : j ≠ (pos - 1) / 2 := by omega
                rw [hMother i hi2 hi3] at hia
                rw [hMother j hj hjne2] at hjb
                exact hA i j a b hpair hj (by rw [hLother i hi2]; exact hia)
                  (by rw [hLother j hj]; exact hjb)
        · -- hB for the moved-up configuration
          intro hpp0 j b hpair hjb q hq
          have hqpos : (pos - 1) / 2 - 1 ≥ 0 := by omega
          have hppp : ((pos - 1) / 2 - 1) / 2 < (pos - 1) / 2 := by omega
          have hq' : l[((pos - 1) / 2 - 1) / 2]? = some q := by
            rw [List.getElem?_set_ne (by omega)] at hq
            exact hq
          have hLpp : (l.set pos x)[(pos - 1) / 2]? = l[(pos - 1) / 2]? :=
            List.getElem?_set_ne (by omega)
          have hpppair : (pos - 1) / 2 = 2 * (((pos - 1) / 2 - 1) / 2) + 1 ∨
              (pos - 1) / 2 = 2 * (((pos - 1) / 2 - 1) / 2) + 2 := by omega
          have hqp : key q ≤ key p := by
            refine hA _ _ q p hpppair (by omega) ?_ ?_
            · rw [List.getElem?_set_ne (by omega)]
              exact hq'
            · rw [hLpp]
              exact hpp
          by_cases hj : j = pos
          · rw [hj, List.getElem?_set_eq_of_lt p hpos] at hjb
            cases hjb
            exact hqp
          · rw [List.getElem?_set_ne (by omega)] at hjb
            refine Nat.le_trans hqp ?_
            exact hA _ j p b hpair hj (by rw [hLpp]; exact hpp)
              (by rw [List.getElem?_set_ne (by omega)]; exact hjb)
      · rename_i hge
        intro i j a b hpair hia hjb
        by_cases hj : j = pos
        · have hieq : i = (pos - 1) / 2 := by omega
          rw [hieq, List.getElem?_set_ne (by omega), hpp] at hia
          rw [hj, List.getElem?_set_eq_of_lt x hpos] at hjb
          cases hia
          cases hjb
          omega
        · exact hA i j a b hpair hj hia hjb
    · rename_i hpp
      have := List.getElem?_eq_none_iff.mp hpp
      omega
  · rename_i hpos0
    have hz : pos = 0 := by omega
    subst hz
    intro i j a b hpair hia hjb
    exact hA i j a b hpair (by omega) hia hjb
termination_by pos
decreasing_by omega

/-- The sift-down-to-bottom loop of `pop`: the hole descends to a
childless position.  It keeps the heap property on all pairs not touching
the hole (`hD1`) and the property that the hole's children are bounded
below by the hole's parent (`hD2`); the final hole is childless in
range. -/
theorem siftDownBot_spec (key : E → Nat) (x : E) (l : List E) (pos endn : Nat)
    (hend : endn = l.length) (hpos : pos < endn)
    (hD1 : ∀ i j a b, (j = 2 * i + 1 ∨ j = 2 * i + 2) → i ≠ pos → j ≠ pos →
        l[i]? = some a → l[j]? = some b → key a ≤ key b)
    (hD2 : 0 < pos → ∀ j b, (j = 2 * pos + 1 ∨ j = 2 * pos + 2) → l[j]? = some b →
        ∀ p, l[(pos - 1) / 2]? = some p → key p ≤ key b) :
    (siftDownBot key x l pos endn).1.length = l.length ∧
    (siftDownBot key x l pos endn).2 < endn ∧
    endn ≤ 2 * (siftDownBot key x l pos endn).2 + 1 ∧
    (∀ i j a b, (j = 2 * i + 1 ∨ j = 2 * i + 2) →
        i ≠ (siftDownBot key x l pos endn).2 → j ≠ (siftDownBot key x l pos endn).2 →
        (siftDownBot key x l pos endn).1[i]? = some a →
        (siftDownBot key x l pos endn).1[j]? = some b → key a ≤ key b) := by
  rw [siftDownBot_eq]
  split
  · -- loop step: 2 * pos + 1 + 1 < endn
    rename_i hcc
    set child' := if key (l.getD (2 * pos + 1 + 1) x) ≤ key (l.getD (2 * pos + 1) x) then
        2 * pos + 1 + 1 else 2 * pos + 1 with hch
    have hcr : child' = 2 * pos + 1 ∨ child' = 2 * pos + 2 := by
      rw [hch]
      split
      · right; rfl
      · left; rfl
    have hclt : child' < endn := by omega
    have hcpos : pos < child' := by omega
    have hbc : child' < l.length := by omega
    have hgd : l.getD child' x = l[child'] := List.getD_eq_getElem l x hbc
    have hc'some : l[child']? = some (l.getD child' x) := by
      rw [hgd]
      exact List.getElem?_eq_getElem (by omega)
    have hmin : ∀ j b, (j = 2 * pos + 1 ∨ j = 2 * pos + 2) → l[j]? = some b →
        key (l.getD child' x) ≤ key b := by
      intro j b hj hjb
      have hjlt : j < l.length := (List.getElem?_eq_some.mp hjb).1
      have hbj : b = l[j] := by
        have := List.getElem?_eq_getElem hjlt
        rw [this] at hjb
        cases hjb
        rfl
      rcases eq_or_ne j child' with hje | hje
      · rw [hje, hc'some] at hjb
        cases hjb
        exact Nat.le_refl _
      · -- j is the sibling of child'
        rw [hch]
        rw [hch] at hje
        have hbl : 2 * pos + 1 < l.length := by omega
        have hbr : 2 * pos + 1 + 1 < l.length := by omega
        have hgl : l.getD (2 * pos + 1) x = l[2 * pos + 1] :=
          List.getD_eq_getElem l x hbl
        have hgr : l.getD (2 * pos + 1 + 1) x = l[2 * pos + 1 + 1] :=
          List.getD_eq_getElem l x hbr
        split
        · rename_i hcmp
          have hj' : j = 2 * pos + 1 := by
            rcases hj with h | h
            · exact h
            · exfalso; apply hje; split at hje <;> omega
          rw [hgr]
          rw [hgl] at hcmp
          rw [hgr] at hcmp
          rw [hbj]
          simp only [hj']
          exact hcmp
        · rename_i hcmp
          have hj' : j = 2 * pos + 2 := by
            rcases hj with h | h
            · exfalso; apply hje; split at hje <;> omega
            · exact h
          rw [hgl]
          rw [hgl, hgr] at hcmp
          rw [hbj]
          simp only [hj']
          exact Nat.le_of_lt (Nat.lt_of_not_le hcmp)
    have hlen2 : (l.set pos (l.getD child' x)).length = l.length := by simp
    have hres := siftDownBot_spec key x (l.set pos (l.getD child' x)) child' endn
      (by rw [hlen2, hend]) hclt
      (by
        intro i j a b hpair hine hjne hia hjb
        by_cases hj : j = pos
        · have h0 : 0 < pos := by omega
          have hieq : i = (pos - 1) / 2 := by omega
          rw [hj, List.getElem?_set_eq_of_lt _ (by omega)] at hjb
          cases hjb
          rw [hieq, List.getElem?_set_ne (by omega)] at hia
          exact hD2 h0 child' _ hcr hc'some a hia
        · by_cases hi : i = pos
          · rw [hi, List.getElem?_set_eq_of_lt _ (by omega)] at hia
            cases hia
            rw [List.getElem?_set_ne (by omega)] at hjb
            rw [hi] at hpair
            have hjsib : j = 2 * pos + 1 ∨ j = 2 * pos + 2 := hpair
            exact hmin j b hjsib hjb
          · rw [List.getElem?_set_ne (by omega)] at hia
            rw [List.getElem?_set_ne (by omega)] at hjb
            exact hD1 i j a b hpair hi hj hia hjb)
      (by
        intro h0 j b hpair hjb p hp
        have hpar : (child' - 1) / 2 = pos := by omega
        rw [hpar, List.getElem?_set_eq_of_lt _ (by omega)] at hp
        cases hp
        have hjgt : j ≠ pos := by omega
        have hjc : j ≠ child' := by omega
        rw [List.getElem?_set_ne (by omega)] at hjb
        exact hD1 child' j _ b hpair (by omega) hjgt hc'some hjb)
    exact ⟨hres.1.trans hlen2, hres.2.1, hres.2.2.1, hres.2.2.2⟩
  · split
    · -- final move: 2 * pos + 1 + 1 = endn
      rename_i hnc hfin
      refine ⟨by simp, by omega, by omega, ?_⟩
      intro i j a b hpair hine hjne hia hjb
      have hjlt : j < l.length := by
        have := (List.getElem?_eq_some.mp hjb).1
        simpa using this
      by_cases hj : j = pos
      · have h0 : 0 < pos := by omega
        have hieq : i = (pos - 1) / 2 := by omega
        rw [hj, List.getElem?_set_eq_of_lt _ (by omega)] at hjb
        cases hjb
        rw [hieq, List.getElem?_set_ne (by omega)] at hia
        have hbl1 : 2 * pos + 1 < l.length := by omega
        have hgd : l.getD (2 * pos + 1) x = l[2 * pos + 1] :=
          List.getD_eq_getElem l x hbl1
        refine hD2 h0 (2 * pos + 1) _ (Or.inl rfl) ?_ a hia
        rw [hgd]
        exact List.getElem?_eq_getElem (by omega)
      · by_cases hi : i = pos
        · -- the only children of pos are the hole target (excluded) and endn
          exfalso
          rw [hi] at hpair
          omega
        · rw [List.getElem?_set_ne (by omega)] at hia
          rw [List.getElem?_set_ne (by omega)] at hjb
          exact hD1 i j a b hpair hi hj hia hjb
    · -- no children in range
      rename_i hnc hne
      exact ⟨rfl, hpos, by omega, hD1⟩
termination_by endn - pos
decreasing_by omega

theorem set_getElem?_self {l : List E} {i : Nat} {a : E} (h : l[i]? = some a) :
    l.set i a = l := by
  induction l generalizing i with
  | nil => simp at h
  | cons hd tl ih =>
    cases i with
    | zero =>
      simp only [List.getElem?_cons_zero, Option.some.injEq] at h
      simp [h]
    | succ n =>
      simp only [List.getElem?_cons_succ] at h
      simp [ih h]

theorem getElem?_dropLast' (l : List E) (i : Nat) (h : i < l.length - 1) :
    l.dropLast[i]? = l[i]? := by
  rw [List.getElem?_eq_getElem (by simp; omega), List.getElem?_eq_getElem (by omega)]
  simp [List.getElem_dropLast]

/-- `push` keeps the heap property. -/
theorem heapPush_heapProp (key : E → Nat) {l : List E} (hp : heapProp key l) (x : E) :
    heapProp key (heapPush key l x) := by
  unfold heapPush
  apply siftUp_heapProp key x (l ++ [x]) l.length (by simp)
  · intro i j a b hpair hjne hia hjb
    have hset : (l ++ [x]).set l.length x = l ++ [x] := set_getElem?_self (by simp)
    rw [hset] at hia hjb
    have hjlt : j < (l ++ [x]).length := (List.getElem?_eq_some.mp hjb).1
    have hjl : j < l.length := by simp at hjlt; omega
    have hil : i < l.length := by omega
    rw [List.getElem?_append, if_pos hjl] at hjb
    rw [List.getElem?_append, if_pos hil] at hia
    exact hp i j a b hpair hia hjb
  · intro h0 j b hpair hjb
    have hjlt : j < (l ++ [x]).length := (List.getElem?_eq_some.mp hjb).1
    simp at hjlt
    omega

/-- `pop` keeps the heap property. -/
theorem heapPop_heapProp (key : E → Nat) {l : List E} (hp : heapProp key l)
    {e : E} {l' : List E} (h : heapPop key l = some (e, l')) : heapProp key l' := by
  unfold heapPop at h
  cases hl : l.getLast? with
  | none => rw [hl] at h; exact absurd h (by simp)
  | some last =>
    rw [hl] at h
    dsimp only at h
    cases hh : l.dropLast.head? with
    | none =>
      rw [hh] at h
      simp only [Option.some.injEq, Prod.mk.injEq] at h
      obtain ⟨-, rfl⟩ := h
      have hdl : l.dropLast = [] := List.head?_eq_none_iff.mp hh
      rw [hdl]
      exact heapProp_nil key
    | some root =>
      rw [hh] at h
      simp only [Option.some.injEq, Prod.mk.injEq] at h
      obtain ⟨-, rfl⟩ := h
      have hld : 0 < l.dropLast.length := by
        cases hdl : l.dropLast with
        | nil => rw [hdl] at hh; simp at hh
        | cons a t => simp
      have hdll : l.dropLast.length = l.length - 1 := by simp
      have hsd := siftDownBot_spec key last l.dropLast 0 l.dropLast.length rfl hld
        (by
          intro i j a b hpair hi hj hia hjb
          have hil : i < l.dropLast.length := (List.getElem?_eq_some.mp hia).1
          have hjl : j < l.dropLast.length := (List.getElem?_eq_some.mp hjb).1
          rw [getElem?_dropLast' l i (by omega)] at hia
          rw [getElem?_dropLast' l j (by omega)] at hjb
          exact hp i j a b hpair hia hjb)
        (by intro h0; omega)
      apply siftUp_heapProp key last _ _ (by rw [hsd.1]; exact hsd.2.1)
      · intro i j a b hpair hjne hia hjb
        have hjl : j < ((siftDownBot key last l.dropLast 0 l.dropLast.length).1.set
            (siftDownBot key last l.dropLast 0 l.dropLast.length).2 last).length :=
          (List.getElem?_eq_some.mp hjb).1
        simp only [List.length_set, hsd.1] at hjl
        by_cases hi : i = (siftDownBot key last l.dropLast 0 l.dropLast.length).2
        · exfalso
          have h3 := hsd.2.2.1
          omega
        · rw [List.getElem?_set_ne (by omega)] at hia
          rw [List.getElem?_set_ne (by omega)] at hjb
          exact hsd.2.2.2 i j a b hpair hi hjne hia hjb
      · intro h0 j b hpair hjb p hpq
        exfalso
        have hjl : j < (siftDownBot key last l.dropLast 0 l.dropLast.length).1.length :=
          (List.getElem?_eq_some.mp hjb).1
        rw [hsd.1] at hjl
        have h3 := hsd.2.2.1
        omega

/-- `pop` returns a minimal element of the heap. -/
theorem heapPop_min (key : E → Nat) {l : List E} (hp : heapProp key l)
    {e : E} {l' : List E} (h : heapPop key l = some (e, l')) :
    ∀ y ∈ l, key e ≤ key y := by
  intro y hy
  have hhead := heapPop_head key h
  have hr : l[0]? = some e := by
    cases l with
    | nil => simp at hhead
    | cons a t => simpa using hhead
  obtain ⟨i, hi⟩ := getElem?_of_mem' hy
  exact heapProp_root_le key hp hr i y hi

end HeapProp

/-! ### Engine lemmas -/

/-- The event-queue half of the reachable-state invariant: the backing
vector is a well-formed heap and no queued event lies in the past. -/
def EventsInv (s : DiscreteSystem) : Prop :=
  heapProp eventKey s.events ∧ ∀ e ∈ s.events, s.current_time ≤ e.time

theorem instantiateComponents_current :
    ∀ (fuel : Nat) (s : DiscreteSystem) (comps : List PComponent) (s' : DiscreteSystem),
      instantiateComponents fuel s comps = some s' → s'.current_time = s.current_time := by
  intro fuel
  induction fuel with
  | zero =>
    intro s comps s' h
    cases comps with
    | nil => cases h; rfl
    | cons c rest => exact absurd h (by simp [instantiateComponents])
  | succ fuel ih =>
    intro s comps s' h
    cases comps with
    | nil => cases h; rfl
    | cons c rest =>
      simp only [instantiateComponents] at h
      split at h
      · exact absurd h (by simp)
      · split at h
        · exact absurd h (by simp)
        · rename_i comp hlk s4 hrec
          have h1 := ih _ _ _ hrec
          have h2 := ih _ _ _ h
          rw [h2, h1]
          rfl

theorem applyEffector_current (fuel : Nat) (s : DiscreteSystem) (a : Nat) (eff : Effector)
    (s' : DiscreteSystem) (h : applyEffector fuel s a eff = some s') :
    s'.current_time = s.current_time := by
  unfold applyEffector at h
  exact (instantiateComponents_current fuel (enqueueAll s a eff.events)
    eff.components s' h).trans rfl

theorem foldPush_inv (t : Nat) (mk : ScheduledEvent → SysEvent)
    (hmk : ∀ ev, t ≤ (mk ev).time) :
    ∀ (evs : List ScheduledEvent) (h : List SysEvent),
      heapProp eventKey h → (∀ e ∈ h, t ≤ e.time) →
      heapProp eventKey (evs.foldl (fun h ev => heapPush eventKey h (mk ev)) h) ∧
      ∀ e ∈ evs.foldl (fun h ev => heapPush eventKey h (mk ev)) h, t ≤ e.time := by
  intro evs
  induction evs with
  | nil => intro h hp hm; exact ⟨hp, hm⟩
  | cons ev rest ih =>
    intro h hp hm
    simp only [List.foldl_cons]
    refine ih _ (heapPush_heapProp eventKey hp _) ?_
    intro e he
    rcases mem_heapPush eventKey he with h1 | h1
    · exact h1 ▸ hmk ev
    · exact hm e h1

theorem enqueueAll_inv (s : DiscreteSystem) (a : Nat) (evs : List ScheduledEvent)
    (hInv : EventsInv s) : EventsInv (enqueueAll s a evs) := by
  refine foldPush_inv s.current_time _ ?_ evs s.events hInv.1 hInv.2
  intro ev
  exact Nat.le_add_right _ _

theorem instantiateComponents_inv :
    ∀ (fuel : Nat) (s : DiscreteSystem) (comps : List PComponent) (s' : DiscreteSystem),
      instantiateComponents fuel s comps = some s' → EventsInv s → EventsInv s' := by
  intro fuel
  induction fuel with
  | zero =>
    intro s comps s' h hInv
    cases comps with
    | nil => cases h; exact hInv
    | cons c rest => exact absurd h (by simp [instantiateComponents])
  | succ fuel ih =>
    intro s comps s' h hInv
    cases comps with
    | nil => cases h; exact hInv
    | cons c rest =>
      simp only [instantiateComponents] at h
      split at h
      · exact absurd h (by simp)
      · split at h
        · exact absurd h (by simp)
        · rename_i comp hlk s4 hrec
          refine ih _ _ _ h (ih _ _ _ hrec ?_)
          exact enqueueAll_inv _ _ _ hInv

theorem applyEffector_inv (fuel : Nat) (s : DiscreteSystem) (a : Nat) (eff : Effector)
    (s' : DiscreteSystem) (h : applyEffector fuel s a eff = some s')
    (hInv : EventsInv s) : EventsInv s' := by
  unfold applyEffector at h
  exact instantiateComponents_inv fuel (enqueueAll s a eff.events) eff.components s' h
    (enqueueAll_inv _ _ _ hInv)

/-- What one `tick` drain loop does to the record of drained events: the
accumulator is extended, every drained event carries the (fixed)
`current_time`, and if the head of the queue already carries
`current_time` it is drained first. -/
theorem tickLoop_spec :
    ∀ (fuel : Nat) (s : DiscreteSystem) (acc evs : List SysEvent) (s' : DiscreteSystem),
      tickLoop fuel s acc = some (evs, s') →
      s'.current_time = s.current_time ∧
      (∃ tail, evs = acc ++ tail ∧ ∀ e ∈ tail, e.time = s.current_time) ∧
      (∀ e0, heapPeek s.events = some e0 → e0.time = s.current_time →
        ∃ tail, evs = acc ++ e0 :: tail) := by
  intro fuel
  induction fuel with
  | zero =>
    intro s acc evs s' h
    simp only [tickLoop] at h
    cases hpk : heapPeek s.events with
    | none =>
      rw [hpk] at h
      cases h
      refine ⟨rfl, ⟨[], by simp⟩, ?_⟩
      intro e0 he0
      cases he0
    | some e =>
      rw [hpk] at h
      dsimp only at h
      by_cases ht : e.time = s.current_time
      · rw [if_pos ht] at h
        cases h
      · rw [if_neg ht] at h
        cases h
        refine ⟨rfl, ⟨[], by simp⟩, ?_⟩
        intro e0 he0 ht0
        cases he0
        exact absurd ht0 ht
  | succ fuel ih =>
    intro s acc evs s' h
    simp only [tickLoop] at h
    cases hpk : heapPeek s.events with
    | none =>
      rw [hpk] at h
      cases h
      refine ⟨rfl, ⟨[], by simp⟩, ?_⟩
      intro e0 he0
      cases he0
    | some e =>
      rw [hpk] at h
      dsimp only at h
      by_cases ht : e.time = s.current_time
      · rw [if_pos ht] at h
        cases hpop : heapPop eventKey s.events with
        | none => rw [hpop] at h; cases h
        | some pr =>
          rw [hpop] at h
          dsimp only at h
          cases hlk : lookupComponent { s with events := pr.2 } pr.1.to_address with
          | none => rw [hlk] at h; cases h
          | some comp =>
            rw [hlk] at h
            dsimp only at h
            cases hh : comp.handle
                { self_address := pr.1.to_address, sender_address := pr.1.from_address,
                  current_time := s.current_time } pr.1.message with
            | none => rw [hh] at h; cases h
            | some r =>
              rw [hh] at h
              dsimp only at h
              cases hap : applyEffector fuel
                  (updateComponent { s with events := pr.2 } pr.1.to_address r.1)
                  pr.1.to_address r.2 with
              | none => rw [hap] at h; cases h
              | some s3 =>
                rw [hap] at h
                have hcur3 : s3.current_time = s.current_time :=
                  (applyEffector_current _ _ _ _ _ hap).trans rfl
                obtain ⟨hc, ⟨tail, htl, htt⟩, -⟩ := ih s3 (acc ++ [pr.1]) evs s' h
                have hev : pr.1 = e := by
                  have := heapPop_head eventKey hpop
                  rw [show s.events.head? = heapPeek s.events from rfl, hpk] at this
                  cases this
                  rfl
                refine ⟨hc.trans hcur3, ⟨pr.1 :: tail, by simp [htl], ?_⟩, ?_⟩
                · intro x hx
                  rcases List.mem_cons.mp hx with rfl | hx
                  · rw [hev]; exact ht
                  · exact (htt x hx).trans hcur3
                · intro e0 he0 ht0
                  cases he0
                  exact ⟨tail, by simp [htl, hev]⟩
      · rw [if_neg ht] at h
        cases h
        refine ⟨rfl, ⟨[], by simp⟩, ?_⟩
        intro e0 he0 ht0
        cases he0
        exact absurd ht0 ht

theorem heapProp_of_const {E : Type} (key : E → Nat) (l : List E) (t : Nat)
    (h : ∀ e ∈ l, key e = t) : heapProp key l := by
  intro i j a b hp hia hjb
  rw [h a (List.getElem?_mem hia), h b (List.getElem?_mem hjb)]

/-- `tick`'s drain loop keeps the queue invariant, and on exit every
remaining event lies strictly in the future. -/
theorem tickLoop_inv :
    ∀ (fuel : Nat) (s : DiscreteSystem) (acc evs : List SysEvent) (s' : DiscreteSystem),
      tickLoop fuel s acc = some (evs, s') → EventsInv s →
      EventsInv s' ∧ ∀ e ∈ s'.events, s'.current_time < e.time := by
  have exitCase : ∀ (s : DiscreteSystem) (e : SysEvent), EventsInv s →
      heapPeek s.events = some e → e.time ≠ s.current_time →
      ∀ y ∈ s.events, s.current_time < y.time := by
    intro s e hInv hpk ht y hy
    have hr : s.events[0]? = some e := by
      cases hev : s.events with
      | nil => rw [hev] at hpk; cases hpk
      | cons a t =>
        rw [hev] at hpk
        cases hpk
        simp
    obtain ⟨i, hi⟩ := getElem?_of_mem' hy
    have h1 : e.time ≤ y.time := heapProp_root_le eventKey hInv.1 hr i y hi
    have h2 : s.current_time ≤ e.time :=
      hInv.2 e (List.mem_of_mem_head? (by rw [show s.events.head? = heapPeek s.events from rfl, hpk]; rfl))
    omega
  intro fuel
  induction fuel with
  | zero =>
    intro s acc evs s' h hInv
    simp only [tickLoop] at h
    cases hpk : heapPeek s.events with
    | none =>
      rw [hpk] at h
      cases h
      refine ⟨hInv, ?_⟩
      intro e he
      rw [List.head?_eq_none_iff.mp hpk] at he
      cases he
    | some e =>
      rw [hpk] at h
      dsimp only at h
      by_cases ht : e.time = s.current_time
      · rw [if_pos ht] at h
        cases h
      · rw [if_neg ht] at h
        cases h
        exact ⟨hInv, exitCase s e hInv hpk ht⟩
  | succ fuel ih =>
    intro s acc evs s' h hInv
    simp only [tickLoop] at h
    cases hpk : heapPeek s.events with
    | none =>
      rw [hpk] at h
      cases h
      refine ⟨hInv, ?_⟩
      intro e he
      rw [List.head?_eq_none_iff.mp hpk] at he
      cases he
    | some e =>
      rw [hpk] at h
      dsimp only at h
      by_cases ht : e.time = s.current_time
      · rw [if_pos ht] at h
        cases hpop : heapPop eventKey s.events with
        | none => rw [hpop] at h; cases h
        | some pr =>
          rw [hpop] at h
          dsimp only at h
          cases hlk : lookupComponent { s with events := pr.2 } pr.1.to_address with
          | none => rw [hlk] at h; cases h
          | some comp =>
            rw [hlk] at h
            dsimp only at h
            cases hh : comp.handle
                { self_address := pr.1.to_address, sender_address := pr.1.from_address,
                  current_time := s.current_time } pr.1.message with
            | none => rw [hh] at h; cases h
            | some r =>
              rw [hh] at h
              dsimp only at h
              cases hap : applyEffector fuel
                  (updateComponent { s with events := pr.2 } pr.1.to_address r.1)
                  pr.1.to_address r.2 with
              | none => rw [hap] at h; cases h
              | some s3 =>
                rw [hap] at h
                have hpop' : heapPop eventKey s.events = some (pr.1, pr.2) := hpop
                have hInv1 : EventsInv { s with events := pr.2 } := by
                  refine ⟨heapPop_heapProp eventKey hInv.1 hpop', ?_⟩
                  intro y hy
                  exact hInv.2 y (heapPop_subset eventKey hpop' y hy)
                have hInv3 : EventsInv s3 := applyEffector_inv _ _ _ _ _ hap hInv1
                exact ih s3 (acc ++ [pr.1]) evs s' h hInv3
      · rw [if_neg ht] at h
        cases h
        exact ⟨hInv, exitCase s e hInv hpk ht⟩

/-- `tick` on an empty queue is the identity. -/
theorem tick_empty (fuel : Nat) (s : DiscreteSystem) (h : s.events = []) :
    s.tick fuel = some ([], s) := by
  simp [DiscreteSystem.tick, heapPeek, h]

/-- `tick` keeps the queue invariant, never moves `current_time`
backwards, stamps every drained event with the new `current_time`, and
leaves only strictly-future events queued. -/
theorem tick_inv (fuel : Nat) (s : DiscreteSystem) (evs : List SysEvent)
    (s' : DiscreteSystem) (h : s.tick fuel = some (evs, s')) (hInv : EventsInv s) :
    EventsInv s' ∧ s.current_time ≤ s'.current_time ∧
    (∀ e ∈ evs, e.time = s'.current_time) ∧
    ∀ e ∈ s'.events, s'.current_time < e.time := by
  unfold DiscreteSystem.tick at h
  cases hpk : heapPeek s.events with
  | none =>
    rw [hpk] at h
    cases h
    refine ⟨hInv, Nat.le_refl _, by simp, ?_⟩
    intro e he
    rw [List.head?_eq_none_iff.mp hpk] at he
    cases he
  | some e0 =>
    rw [hpk] at h
    have he0mem : e0 ∈ s.events :=
      List.mem_of_mem_head? (by rw [show s.events.head? = heapPeek s.events from rfl, hpk]; rfl)
    have hInvM : EventsInv { s with current_time := e0.time } := by
      refine ⟨hInv.1, ?_⟩
      intro y hy
      have hr : s.events[0]? = some e0 := by
        cases hev : s.events with
        | nil => rw [hev] at he0mem; cases he0mem
        | cons a t =>
          rw [hev] at hpk
          cases hpk
          simp
      obtain ⟨i, hi⟩ := getElem?_of_mem' hy
      exact heapProp_root_le eventKey hInv.1 hr i y hi
    obtain ⟨hI, hstrict⟩ := tickLoop_inv fuel _ [] evs s' h hInvM
    obtain ⟨hc, ⟨tail, htl, htt⟩, -⟩ := tickLoop_spec fuel _ [] evs s' h
    refine ⟨hI, ?_, ?_, hstrict⟩
    · rw [hc]
      exact hInv.2 e0 he0mem
    · intro e he
      rw [hc]
      exact htt e (by rw [htl] at he; simpa using he)

theorem startComponentAt_inv (fuel : Nat) (s : DiscreteSystem) (a : Nat)
    (s' : DiscreteSystem) (h : startComponentAt fuel s a = some s')
    (hInv : EventsInv s) : EventsInv s' ∧ s'.current_time = s.current_time := by
  unfold startComponentAt at h
  cases hlk : lookupComponent s a with
  | none => rw [hlk] at h; cases h
  | some comp =>
    rw [hlk] at h
    dsimp only at h
    exact ⟨applyEffector_inv _ _ _ _ _ h hInv,
      (applyEffector_current _ _ _ _ _ h).trans rfl⟩

theorem foldStartM_inv :
    ∀ (order : List Nat) (fuel : Nat) (s s' : DiscreteSystem),
      List.foldlM (fun st addr => startComponentAt fuel st addr) s order = some s' →
      EventsInv s → EventsInv s' ∧ s'.current_time = s.current_time := by
  intro order
  induction order with
  | nil =>
    intro fuel s s' h hInv
    cases h
    exact ⟨hInv, rfl⟩
  | cons a rest ih =>
    intro fuel s s' h hInv
    rw [List.foldlM_cons] at h
    cases hsa : startComponentAt fuel s a with
    | none => rw [hsa] at h; cases h
    | some s1 =>
      rw [hsa] at h
      obtain ⟨h1, h2⟩ := startComponentAt_inv fuel s a s1 hsa hInv
      obtain ⟨h3, h4⟩ := ih fuel s1 s' h h1
      exact ⟨h3, h4.trans h2⟩

theorem startWithOrder_inv (fuel : Nat) (s : DiscreteSystem) (order : List Nat)
    (s' : DiscreteSystem) (h : startWithOrder fuel s order = some s')
    (hInv : EventsInv s) : EventsInv s' ∧ s.current_time ≤ s'.current_time := by
  unfold startWithOrder at h
  cases hf : List.foldlM (fun st addr => startComponentAt fuel st addr) s order with
  | none => rw [hf] at h; cases h
  | some s1 =>
    rw [hf] at h
    dsimp only at h
    obtain ⟨h1, h2⟩ := foldStartM_inv order fuel s s1 hf hInv
    cases hpk : heapPeek s1.events with
    | none =>
      rw [hpk] at h
      cases h
      exact ⟨h1, by omega⟩
    | some e =>
      rw [hpk] at h
      dsimp only at h
      by_cases ht : e.time = 0
      · rw [if_pos ht] at h
        cases htk : s1.tick fuel with
        | none => rw [htk] at h; cases h
        | some r =>
          rw [htk] at h
          cases h
          obtain ⟨h3, h4, -, -⟩ := tick_inv fuel s1 r.1 r.2 (by rw [htk]) h1
          exact ⟨h3, by omega⟩
      · rw [if_neg ht] at h
        cases h
        exact ⟨h1, by omega⟩

theorem registerFold_state (cs : List CarouselConfig) :
    ∀ (p : DiscreteSystem × List (Nat × Nat)),
      (cs.foldl (fun (p : DiscreteSystem × List (Nat × Nat)) cfg =>
        let rc := p.1.register_component (.Carousel (Carousel.new cfg))
        (rc.2, p.2 ++ [(cfg.id, rc.1)])) p).1.events = p.1.events ∧
      (cs.foldl (fun (p : DiscreteSystem × List (Nat × Nat)) cfg =>
        let rc := p.1.register_component (.Carousel (Carousel.new cfg))
        (rc.2, p.2 ++ [(cfg.id, rc.1)])) p).1.current_time = p.1.current_time := by
  induction cs with
  | nil => intro p; exact ⟨rfl, rfl⟩
  | cons c rest ih =>
    intro p
    simp only [List.foldl_cons]
    exact ih _

theorem register_inv (s : DiscreteSystem) (c : PComponent) (h : EventsInv s) :
    EventsInv (s.register_component c).2 := h

theorem new_inv : EventsInv DiscreteSystem.new := by
  refine ⟨heapProp_nil eventKey, ?_⟩
  intro e he
  simp [DiscreteSystem.new] at he

theorem foldRegister_inv (cs : List CarouselConfig) :
    ∀ p : DiscreteSystem × List (Nat × Nat), EventsInv p.1 →
      EventsInv (cs.foldl (fun (p : DiscreteSystem × List (Nat × Nat)) cfg =>
        let rc := p.1.register_component (.Carousel (Carousel.new cfg))
        (rc.2, p.2 ++ [(cfg.id, rc.1)])) p).1 := by
  induction cs with
  | nil => intro p hp; exact hp
  | cons c rest ih =>
    intro p hp
    simp only [List.foldl_cons]
    exact ih _ (register_inv _ _ hp)

/-- The bootstrapped engine satisfies the queue invariant. -/
theorem bootstrap_inv (fuel : Nat) (config : SystemConfig) (order : List Nat)
    (s0 : DiscreteSystem) (h : bootstrap_system fuel config order = some s0) :
    EventsInv s0 := by
  unfold bootstrap_system at h
  split at h
  · exact (startWithOrder_inv fuel _ order s0 h
      (register_inv _ _ (foldRegister_inv config.carousels (DiscreteSystem.new, []) new_inv))).1
  · cases h

/-! ### Component-level lemmas for the carousel invariants -/

theorem foldSchedule_components (f : Effector → CustomerInfo → Effector)
    (hf : ∀ e ci, (f e ci).components = e.components) :
    ∀ (l : List CustomerInfo) (eff : Effector),
      (l.foldl f eff).components = eff.components := by
  intro l
  induction l with
  | nil => intro eff; rfl
  | cons a rest ih =>
    intro eff
    simp only [List.foldl_cons]
    rw [ih, hf]

/-- No carousel dispatch branch instantiates a component. -/
theorem handleDispatch_components (c : Carousel) (info : HandleInfo)
    (msg : Option CarouselMsg) (r : Carousel × Effector)
    (h : Carousel.handleDispatch c info msg = some r) :
    r.2.components = [] := by
  have hfold : ∀ (l : List CustomerInfo) (eff : Effector) (m2 : ParkEvent),
      (l.foldl (fun e ci => e.schedule_immediately ci.address m2) eff).components =
        eff.components :=
    fun l eff m2 => foldSchedule_components
      (fun e ci => e.schedule_immediately ci.address m2) (fun e ci => rfl) l eff
  dsimp only [Carousel.handleDispatch] at h
  repeat' split at h
  all_goals try cases h
  all_goals simp_all [Carousel.start_ride, Carousel.do_ride, Carousel.end_ride,
    Carousel.start_standard_wait, Carousel.start_extended_wait,
    Effector.schedule_in_to_self, Effector.new, hfold]

theorem carousel_handle_components (c : Carousel) (info : HandleInfo) (m : ParkEvent)
    (r : Carousel × Effector) (h : Carousel.handle c info m = some r) :
    r.2.components = [] :=
  handleDispatch_components _ _ _ _ h

/-- The intake step preserves the capacity bound and changes neither the
config nor the mode. -/
theorem handleIntake_cap (c : Carousel) (info : HandleInfo) (msg : Option CarouselMsg)
    (hcap : c.customers_inner_queue.length ≤ c.config.capacity) :
    (c.handleIntake info msg).customers_inner_queue.length ≤
      (c.handleIntake info msg).config.capacity ∧
    (c.handleIntake info msg).config = c.config ∧
    (c.handleIntake info msg).state = c.state := by
  unfold Carousel.handleIntake
  dsimp only
  repeat' split
  all_goals refine ⟨?_, rfl, rfl⟩
  all_goals try simp
  all_goals omega

/-- The dispatch step preserves the capacity bound and the config. -/
theorem handleDispatch_cap (c : Carousel) (info : HandleInfo) (msg : Option CarouselMsg)
    (r : Carousel × Effector)
    (hcap : c.customers_inner_queue.length ≤ c.config.capacity)
    (h : Carousel.handleDispatch c info msg = some r) :
    r.1.customers_inner_queue.length ≤ r.1.config.capacity ∧ r.1.config = c.config := by
  dsimp only [Carousel.handleDispatch] at h
  repeat' split at h
  all_goals try cases h
  all_goals constructor
  all_goals simp_all [Carousel.start_ride, Carousel.do_ride, Carousel.end_ride,
    Carousel.start_standard_wait, Carousel.start_extended_wait]
  all_goals omega

/-- The carousel handler preserves `inner_queue.len ≤ capacity` and never
changes the config. -/
theorem carousel_handle_cap (c : Carousel) (info : HandleInfo) (m : ParkEvent)
    (r : Carousel × Effector)
    (hcap : c.customers_inner_queue.length ≤ c.config.capacity)
    (h : Carousel.handle c info m = some r) :
    r.1.customers_inner_queue.length ≤ r.1.config.capacity ∧ r.1.config = c.config := by
  have hentry : c.handleEntry.customers_inner_queue.length ≤
      c.handleEntry.config.capacity := hcap
  obtain ⟨h1, h2, -⟩ := handleIntake_cap c.handleEntry info m.intoCarousel hentry
  obtain ⟨h3, h4⟩ := handleDispatch_cap _ info m.intoCarousel r h1 h
  exact ⟨h3, h4.trans h2⟩

/-- `next_run` only schedules events on an effector, never components. -/
theorem next_run_components (cu : Customer) (eff : Effector) (time : Nat) :
    (Customer.next_run cu eff time).2.components = eff.components := by
  unfold Customer.next_run
  dsimp only
  split
  · simp [Effector.schedule_immediately]
  · rfl

/-- The customer handler never instantiates components. -/
theorem customer_handle_components (cu : Customer) (info : HandleInfo) (m : ParkEvent) :
    (Customer.handle cu info m).2.components = [] := by
  unfold Customer.handle
  dsimp only
  repeat' split
  all_goals simp [next_run_components, Effector.new]

theorem customer_start_components (cu : Customer) (info : StartInfo) :
    (Customer.start cu info).2.components = [] := by
  unfold Customer.start
  simp [next_run_components, Effector.new]

/-- The dispatcher loop only ever instantiates `Customer` components. -/
theorem dispatchLoopF_components (cars : List (Nat × Nat)) (t : Nat) :
    ∀ (fuel : Nat) (heap : List CustomerConfig) (eff : Effector)
      (res : List CustomerConfig × Effector),
      dispatchLoopF cars t fuel heap eff = some res →
      ∀ c' ∈ res.2.components,
        c' ∈ eff.components ∨ ∃ cu, c' = PComponent.Customer cu := by
  intro fuel
  induction fuel with
  | zero =>
    intro heap eff res h c' hc
    cases h
    exact Or.inl hc
  | succ fuel ih =>
    intro heap eff res h c' hc
    simp only [dispatchLoopF] at h
    cases hpk : heapPeek heap with
    | none =>
      rw [hpk] at h
      cases h
      exact Or.inl hc
    | some config =>
      rw [hpk] at h
      dsimp only at h
      by_cases ht : config.arrival_time = t
      · rw [if_pos ht] at h
        cases hpop : heapPop configKey heap with
        | none => rw [hpop] at h; cases h
        | some pr =>
          rw [hpop] at h
          dsimp only at h
          cases hres : resolveCarousels cars pr.1.carousels with
          | none => rw [hres] at h; cases h
          | some infos =>
            rw [hres] at h
            rcases ih _ _ _ h c' hc with h1 | h1
            · simp only [Effector.instantiate_new_component, List.mem_append,
                List.mem_singleton] at h1
              rcases h1 with h1 | h1
              · exact Or.inl h1
              · exact Or.inr ⟨_, h1⟩
            · exact Or.inr h1
      · rw [if_neg ht] at h
        cases h
        exact Or.inl hc

/-- Every component instantiated by any park handler is a `Customer`. -/
theorem handle_components_customers (c : PComponent) (info : HandleInfo) (m : ParkEvent)
    (r : PComponent × Effector) (h : PComponent.handle c info m = some r) :
    ∀ c' ∈ r.2.components, ∃ cu, c' = PComponent.Customer cu := by
  cases c with
  | Carousel car =>
    simp only [PComponent.handle, Option.map_eq_some'] at h
    obtain ⟨r0, hr0, rfl⟩ := h
    intro c' hc
    rw [carousel_handle_components car info m r0 hr0] at hc
    cases hc
  | Customer cu =>
    simp only [PComponent.handle, Option.some.injEq] at h
    intro c' hc
    rw [← h] at hc
    simp only at hc
    rw [customer_handle_components cu info m] at hc
    cases hc
  | CustomerDispatcher d =>
    simp only [PComponent.handle, Option.map_eq_some'] at h
    obtain ⟨r0, hr0, rfl⟩ := h
    intro c' hc
    unfold CustomerDispatcher.handle at hr0
    cases hmsg : m.intoDispatcher with
    | none =>
      rw [hmsg] at hr0
      dsimp only at hr0
      cases hr0
      simp [Effector.new] at hc
    | some msg =>
      cases msg
      rw [hmsg] at hr0
      dsimp only at hr0
      cases hdl : dispatchLoop d.carousels info.current_time d.customers_configs
          Effector.new with
      | none => rw [hdl] at hr0; cases hr0
      | some dres =>
        rw [hdl] at hr0
        dsimp only at hr0
        cases hr0
        have hcomp : ∀ x ∈ (CustomerDispatcher.schedule_next
            { d with customers_configs := dres.1 } dres.2 info.current_time).components,
            x ∈ dres.2.components := by
          intro x hx
          unfold CustomerDispatcher.schedule_next at hx
          cases hq : heapPeek dres.1 with
          | none => rw [hq] at hx; exact hx
          | some cfg =>
            rw [hq] at hx
            simpa [Effector.schedule_in_to_self] using hx
        simp only at hc
        have hc2 := hcomp _ hc
        unfold dispatchLoop at hdl
        rcases dispatchLoopF_components d.carousels info.current_time _ _ _ _ hdl _ hc2
          with h1 | h1
        · simp [Effector.new] at h1
        · exact h1

/-- No park component's `start` instantiates components. -/
theorem start_components_nil (c : PComponent) (info : StartInfo) :
    (PComponent.start c info).2.components = [] := by
  cases c with
  | Carousel car => rfl
  | Customer cu =>
    simp only [PComponent.start]
    exact customer_start_components cu info
  | CustomerDispatcher d =>
    simp only [PComponent.start, CustomerDispatcher.start,
      CustomerDispatcher.schedule_next]
    cases hq : heapPeek d.customers_configs <;> simp [Effector.schedule_in_to_self, Effector.new]

/-- The intake step never changes config or mode. -/
theorem handleIntake_fields (c : Carousel) (info : HandleInfo) (msg : Option CarouselMsg) :
    (c.handleIntake info msg).config = c.config ∧
    (c.handleIntake info msg).state = c.state := by
  unfold Carousel.handleIntake
  dsimp only
  repeat' split
  all_goals exact ⟨rfl, rfl⟩

/-- The intake step only appends to the inner queue. -/
theorem handleIntake_inner (c : Carousel) (info : HandleInfo) (msg : Option CarouselMsg) :
    (c.handleIntake info msg).customers_inner_queue = c.customers_inner_queue ∨
    ∃ x, (c.handleIntake info msg).customers_inner_queue = c.customers_inner_queue ++ [x] := by
  unfold Carousel.handleIntake
  dsimp only
  repeat' split
  all_goals first
    | exact Or.inl rfl
    | exact Or.inr ⟨_, rfl⟩

/-- On a `CustomerArrived`, a carousel that is not in a mismatched
`Starting` mode ends the intake step with a non-empty inner queue
(either the newcomer was pushed, or the queue was already full and the
capacity is at least one). -/
theorem handleIntake_nonempty (c : Carousel) (info : HandleInfo)
    (hcap : 1 ≤ c.config.capacity)
    (hstate : ∀ t, c.state = .Starting t → info.current_time = t) :
    (c.handleIntake info (some .CustomerArrived)).customers_inner_queue ≠ [] := by
  unfold Carousel.handleIntake
  dsimp only
  rw [if_pos rfl]
  have hlen : ∀ (l : List CustomerInfo) (x : CustomerInfo),
      ¬l.length < c.config.capacity → l ≠ [] := by
    intro l x hl he
    rw [he] at hl
    simp at hl
    omega
  split
  · rename_i t ht
    split
    · rename_i hne
      exact absurd (hstate t ht) hne
    · split
      · simp
      · rename_i hfull
        simpa using hlen c.customers_inner_queue
          { arrival_time := info.current_time, address := info.sender_address } hfull
  · split
    · simp
    · rename_i hfull
      simpa using hlen c.customers_inner_queue
        { arrival_time := info.current_time, address := info.sender_address } hfull

/-- The per-carousel reachable-state invariant: a validated config
(`1 ≤ min_capacity ≤ capacity`), the capacity bound on the inner queue,
and a non-empty inner queue whenever the mode is `ExtendedWaiting` or
`Starting`. -/
def CarouselInvP (c : Carousel) : Prop :=
  1 ≤ c.config.min_capacity ∧ c.config.min_capacity ≤ c.config.capacity ∧
  c.customers_inner_queue.length ≤ c.config.capacity ∧
  ((c.state = .ExtendedWaiting ∨ ∃ t, c.state = .Starting t) →
    c.customers_inner_queue ≠ [])

/-- `CarouselInvP` lifted to arbitrary park components. -/
def PCompInvP : PComponent → Prop
  | .Carousel c => CarouselInvP c
  | _ => True

/-- The component half of the reachable-state invariant: every registered
component satisfies `PCompInvP`. -/
def CompInv (s : DiscreteSystem) : Prop :=
  ∀ p ∈ s.components, PCompInvP p.2

/-- The dispatch step preserves `CarouselInvP`, given that a
`CustomerArrived` message has already been taken in (so the inner queue is
non-empty unless the carousel is in a mismatched `Starting` mode). -/
theorem handleDispatch_inv (c : Carousel) (info : HandleInfo) (msg : Option CarouselMsg)
    (r : Carousel × Effector) (hc : CarouselInvP c)
    (harr : msg = some .CustomerArrived → (∀ t, c.state ≠ .Starting t) →
      c.customers_inner_queue ≠ [])
    (h : Carousel.handleDispatch c info msg = some r) :
    CarouselInvP r.1 := by
  obtain ⟨hmin, hmincap, hcap, hmode⟩ := hc
  unfold Carousel.handleDispatch at h
  cases hstate : c.state with
  | Idle next_state =>
    rw [hstate] at h
    dsimp only at h
    have hnost : ∀ t, c.state ≠ CState.Starting t := by
      intro t ht; rw [hstate] at ht; cases ht
    cases msg with
    | none =>
      dsimp only at h; cases h
      exact ⟨hmin, hmincap, hcap, fun hk => absurd hk (by simp [hstate])⟩
    | some mm =>
      cases mm with
      | CustomerArrived =>
        dsimp only at h
        cases next_state with
        | StandardWaiting =>
          dsimp only at h; cases h
          exact ⟨hmin, hmincap, hcap,
            fun hk => absurd hk (by simp [Carousel.start_standard_wait])⟩
        | ExtendedWaiting =>
          dsimp only at h; cases h
          exact ⟨hmin, hmincap, hcap, fun _ => harr rfl hnost⟩
        | Idle ns2 => dsimp only at h; cases h
        | Starting t2 => dsimp only at h; cases h
        | Running => dsimp only at h; cases h
      | StandardWaitEnded cyc =>
        dsimp only at h; cases h
        exact ⟨hmin, hmincap, hcap, fun hk => absurd hk (by simp [hstate])⟩
      | ExtendedWaitEnded cyc =>
        dsimp only at h; cases h
        exact ⟨hmin, hmincap, hcap, fun hk => absurd hk (by simp [hstate])⟩
      | EndRide =>
        dsimp only at h; cases h
        exact ⟨hmin, hmincap, hcap, fun hk => absurd hk (by simp [hstate])⟩
      | Start =>
        dsimp only at h; cases h
        exact ⟨hmin, hmincap, hcap, fun hk => absurd hk (by simp [hstate])⟩
  | StandardWaiting =>
    rw [hstate] at h
    dsimp only at h
    cases msg with
    | none =>
      dsimp only at h; cases h
      exact ⟨hmin, hmincap, hcap, fun hk => absurd hk (by simp [hstate])⟩
    | some mm =>
      cases mm with
      | StandardWaitEnded cyc =>
        dsimp only at h
        by_cases hcy : c.cycle = cyc
        · rw [if_pos hcy] at h
          by_cases hmin2 : c.config.min_capacity ≤ c.customers_inner_queue.length
          · have hne2 : c.customers_inner_queue ≠ [] := by
              intro hnil
              rw [hnil] at hmin2
              simp at hmin2
              omega
            rw [if_pos hmin2] at h; cases h
            exact ⟨hmin, hmincap, hcap, fun _ => hne2⟩
          · rw [if_neg hmin2] at h
            by_cases h0 : c.customers_inner_queue.length = 0
            · rw [if_pos h0] at h; cases h
              exact ⟨hmin, hmincap, hcap, fun hk => absurd hk (by simp)⟩
            · have hne2 : c.customers_inner_queue ≠ [] := by
                intro hnil
                rw [hnil] at h0
                simp at h0
              rw [if_neg h0] at h; cases h
              exact ⟨hmin, hmincap, hcap, fun _ => hne2⟩
        · rw [if_neg hcy] at h; cases h
          exact ⟨hmin, hmincap, hcap, fun hk => absurd hk (by simp [hstate])⟩
      | CustomerArrived =>
        dsimp only at h; cases h
        exact ⟨hmin, hmincap, hcap, fun hk => absurd hk (by simp [hstate])⟩
      | ExtendedWaitEnded cyc =>
        dsimp only at h; cases h
        exact ⟨hmin, hmincap, hcap, fun hk => absurd hk (by simp [hstate])⟩
      | EndRide =>
        dsimp only at h; cases h
        exact ⟨hmin, hmincap, hcap, fun hk => absurd hk (by simp [hstate])⟩
      | Start =>
        dsimp only at h; cases h
        exact ⟨hmin, hmincap, hcap, fun hk => absurd hk (by simp [hstate])⟩
  | ExtendedWaiting =>
    rw [hstate] at h
    dsimp only at h
    have hne : c.customers_inner_queue ≠ [] := hmode (Or.inl hstate)
    cases msg with
    | none =>
      dsimp only at h; cases h
      exact ⟨hmin, hmincap, hcap, fun _ => hne⟩
    | some mm =>
      cases mm with
      | CustomerArrived =>
        dsimp only at h
        by_cases hmin2 : c.config.min_capacity ≤ c.customers_inner_queue.length
        · rw [if_pos hmin2] at h; cases h
          exact ⟨hmin, hmincap, hcap, fun _ => hne⟩
        · rw [if_neg hmin2] at h; cases h
          exact ⟨hmin, hmincap, hcap, fun _ => hne⟩
      | ExtendedWaitEnded cyc =>
        dsimp only at h
        by_cases hcy : c.cycle = cyc
        · rw [if_pos hcy] at h; cases h
          exact ⟨hmin, hmincap, hcap, fun _ => hne⟩
        · rw [if_neg hcy] at h; cases h
          exact ⟨hmin, hmincap, hcap, fun _ => hne⟩
      | StandardWaitEnded cyc =>
        dsimp only at h; cases h
        exact ⟨hmin, hmincap, hcap, fun _ => hne⟩
      | EndRide =>
        dsimp only at h; cases h
        exact ⟨hmin, hmincap, hcap, fun _ => hne⟩
      | Start =>
        dsimp only at h; cases h
        exact ⟨hmin, hmincap, hcap, fun _ => hne⟩
  | Running =>
    rw [hstate] at h
    dsimp only at h
    cases msg with
    | none =>
      dsimp only at h; cases h
      exact ⟨hmin, hmincap, hcap, fun hk => absurd hk (by simp [hstate])⟩
    | some mm =>
      cases mm with
      | EndRide =>
        dsimp only at h; cases h
        dsimp only [Carousel.end_ride, Carousel.start_standard_wait]
        exact ⟨hmin, hmincap, hcap, fun hk => absurd hk (by simp)⟩
      | CustomerArrived =>
        dsimp only at h; cases h
        exact ⟨hmin, hmincap, hcap, fun hk => absurd hk (by simp [hstate])⟩
      | StandardWaitEnded cyc =>
        dsimp only at h; cases h
        exact ⟨hmin, hmincap, hcap, fun hk => absurd hk (by simp [hstate])⟩
      | ExtendedWaitEnded cyc =>
        dsimp only at h; cases h
        exact ⟨hmin, hmincap, hcap, fun hk => absurd hk (by simp [hstate])⟩
      | Start =>
        dsimp only at h; cases h
        exact ⟨hmin, hmincap, hcap, fun hk => absurd hk (by simp [hstate])⟩
  | Starting t =>
    rw [hstate] at h
    dsimp only at h
    have hne : c.customers_inner_queue ≠ [] := hmode (Or.inr ⟨t, hstate⟩)
    cases msg with
    | none =>
      dsimp only at h; cases h
      exact ⟨hmin, hmincap, hcap, fun _ => hne⟩
    | some mm =>
      cases mm with
      | Start =>
        dsimp only at h; cases h
        dsimp only [Carousel.do_ride]
        refine ⟨hmin, hmincap, ?_, fun hk => absurd hk (by simp)⟩
        show (c.customers_outer_queue.take
            (min c.config.capacity c.customers_outer_queue.length)).length ≤
          c.config.capacity
        simp only [List.length_take]
        omega
      | CustomerArrived =>
        dsimp only at h; cases h
        exact ⟨hmin, hmincap, hcap, fun _ => hne⟩
      | StandardWaitEnded cyc =>
        dsimp only at h; cases h
        exact ⟨hmin, hmincap, hcap, fun _ => hne⟩
      | ExtendedWaitEnded cyc =>
        dsimp only at h; cases h
        exact ⟨hmin, hmincap, hcap, fun _ => hne⟩
      | EndRide =>
        dsimp only at h; cases h
        exact ⟨hmin, hmincap, hcap, fun _ => hne⟩

/-- `Carousel::handle` preserves the carousel invariant. -/
theorem carousel_handle_inv (c : Carousel) (info : HandleInfo) (m : ParkEvent)
    (r : Carousel × Effector) (hc : CarouselInvP c)
    (h : Carousel.handle c info m = some r) : CarouselInvP r.1 := by
  obtain ⟨hmin, hmincap, hcap, hmode⟩ := hc
  obtain ⟨hic, hicfg, hist⟩ := handleIntake_cap c.handleEntry info m.intoCarousel hcap
  have hmode2 : (((c.handleEntry).handleIntake info m.intoCarousel).state =
        CState.ExtendedWaiting ∨
      ∃ t, ((c.handleEntry).handleIntake info m.intoCarousel).state = CState.Starting t) →
      ((c.handleEntry).handleIntake info m.intoCarousel).customers_inner_queue ≠ [] := by
    intro hk
    rw [hist] at hk
    have h0 : c.customers_inner_queue ≠ [] := hmode hk
    rcases handleIntake_inner c.handleEntry info m.intoCarousel with hi | ⟨x, hi⟩
    · rw [hi]; exact h0
    · rw [hi]; intro hap; simp at hap
  have hinv2 : CarouselInvP ((c.handleEntry).handleIntake info m.intoCarousel) :=
    ⟨by rw [hicfg]; exact hmin, by rw [hicfg]; exact hmincap, hic, hmode2⟩
  have harr2 : m.intoCarousel = some CarouselMsg.CustomerArrived →
      (∀ t, ((c.handleEntry).handleIntake info m.intoCarousel).state ≠ CState.Starting t) →
      ((c.handleEntry).handleIntake info m.intoCarousel).customers_inner_queue ≠ [] := by
    intro hma hnost
    rw [hma] at hnost hist ⊢
    refine handleIntake_nonempty c.handleEntry info
      (by show 1 ≤ c.config.capacity; omega) ?_
    intro t2 ht
    exact absurd (hist.trans ht) (hnost t2)
  exact handleDispatch_inv _ info m.intoCarousel r hinv2 harr2 h

theorem pcomp_start_inv (c : PComponent) (info : StartInfo) (hc : PCompInvP c) :
    PCompInvP (PComponent.start c info).1 := by
  cases c with
  | Carousel car => exact hc
  | Customer cu => trivial
  | CustomerDispatcher d => trivial

theorem pcomp_handle_inv (c : PComponent) (info : HandleInfo) (m : ParkEvent)
    (r : PComponent × Effector) (h : PComponent.handle c info m = some r)
    (hc : PCompInvP c) : PCompInvP r.1 := by
  cases c with
  | Carousel car =>
    simp only [PComponent.handle, Option.map_eq_some'] at h
    obtain ⟨r0, hr0, rfl⟩ := h
    exact carousel_handle_inv car info m r0 hc hr0
  | Customer cu =>
    simp only [PComponent.handle, Option.some.injEq] at h
    rw [← h]
    trivial
  | CustomerDispatcher d =>
    simp only [PComponent.handle, Option.map_eq_some'] at h
    obtain ⟨r0, hr0, rfl⟩ := h
    trivial

theorem pcomp_handle_components (c : PComponent) (info : HandleInfo) (m : ParkEvent)
    (r : PComponent × Effector) (h : PComponent.handle c info m = some r) :
    ∀ c' ∈ r.2.components, PCompInvP c' := by
  intro c' hc'
  obtain ⟨cu, rfl⟩ := handle_components_customers c info m r h c' hc'
  trivial

theorem register_compInv (s : DiscreteSystem) (c : PComponent) (hs : CompInv s)
    (hc : PCompInvP c) : CompInv (s.register_component c).2 := by
  intro p hp
  simp only [DiscreteSystem.register_component, List.mem_append,
    List.mem_singleton] at hp
  rcases hp with hp | rfl
  · exact hs p hp
  · exact hc

theorem update_compInv (s : DiscreteSystem) (addr : Nat) (c : PComponent) (hs : CompInv s)
    (hc : PCompInvP c) : CompInv (updateComponent s addr c) := by
  intro p hp
  simp only [updateComponent, List.mem_map] at hp
  obtain ⟨q, hq, hpq⟩ := hp
  by_cases hqa : q.1 = addr
  · rw [if_pos hqa] at hpq
    rw [← hpq]
    exact hc
  · rw [if_neg hqa] at hpq
    rw [← hpq]
    exact hs q hq

theorem enqueueAll_compInv (s : DiscreteSystem) (a : Nat) (evs : List ScheduledEvent)
    (hs : CompInv s) : CompInv (enqueueAll s a evs) := hs

theorem lookup_compInv (s : DiscreteSystem) (addr : Nat) (comp : PComponent)
    (h : lookupComponent s addr = some comp) (hs : CompInv s) : PCompInvP comp := by
  unfold lookupComponent at h
  simp only [Option.map_eq_some'] at h
  obtain ⟨p, hp, rfl⟩ := h
  exact hs p (List.mem_of_find?_eq_some hp)

theorem instantiateComponents_compInv :
    ∀ (fuel : Nat) (s : DiscreteSystem) (comps : List PComponent) (s' : DiscreteSystem),
      instantiateComponents fuel s comps = some s' → CompInv s →
      (∀ c ∈ comps, PCompInvP c) → CompInv s' := by
  intro fuel
  induction fuel with
  | zero =>
    intro s comps s' h hs hc
    cases comps with
    | nil => cases h; exact hs
    | cons c rest => exact absurd h (by simp [instantiateComponents])
  | succ fuel ih =>
    intro s comps s' h hs hc
    cases comps with
    | nil => cases h; exact hs
    | cons c rest =>
      simp only [instantiateComponents] at h
      split at h
      · exact absurd h (by simp)
      · rename_i comp hlk
        split at h
        · exact absurd h (by simp)
        · rename_i s4 hrec
          have hreg : CompInv (s.register_component c).2 :=
            register_compInv s c hs (hc c (List.mem_cons_self c rest))
          have hcomp : PCompInvP comp :=
            lookup_compInv _ _ comp hlk hreg
          have hs4 : CompInv s4 :=
            ih _ _ _ hrec
              (enqueueAll_compInv _ _ _
                (update_compInv _ _ _ hreg (pcomp_start_inv comp _ hcomp)))
              (fun c2 hc2 => absurd hc2 (by simp [start_components_nil]))
          exact ih _ _ _ h hs4 (fun c2 hc2 => hc c2 (List.mem_cons_of_mem c hc2))

theorem applyEffector_compInv (fuel : Nat) (s : DiscreteSystem) (a : Nat) (eff : Effector)
    (s' : DiscreteSystem) (h : applyEffector fuel s a eff = some s')
    (hs : CompInv s) (hc : ∀ c ∈ eff.components, PCompInvP c) : CompInv s' := by
  unfold applyEffector at h
  exact instantiateComponents_compInv fuel _ _ s' h (enqueueAll_compInv _ _ _ hs) hc

theorem startComponentAt_compInv (fuel : Nat) (s : DiscreteSystem) (a : Nat)
    (s' : DiscreteSystem) (h : startComponentAt fuel s a = some s')
    (hs : CompInv s) : CompInv s' := by
  unfold startComponentAt at h
  cases hlk : lookupComponent s a with
  | none => rw [hlk] at h; cases h
  | some comp =>
    rw [hlk] at h
    dsimp only at h
    have hcomp := lookup_compInv s a comp hlk hs
    refine applyEffector_compInv fuel _ a _ s' h
      (update_compInv _ _ _ hs (pcomp_start_inv comp _ hcomp)) ?_
    intro c2 hc2
    exact absurd hc2 (by simp [start_components_nil])

theorem tickLoop_compInv :
    ∀ (fuel : Nat) (s : DiscreteSystem) (acc evs : List SysEvent) (s' : DiscreteSystem),
      tickLoop fuel s acc = some (evs, s') → CompInv s → CompInv s' := by
  intro fuel
  induction fuel with
  | zero =>
    intro s acc evs s' h hs
    simp only [tickLoop] at h
    cases hpk : heapPeek s.events with
    | none => rw [hpk] at h; cases h; exact hs
    | some e =>
      rw [hpk] at h
      dsimp only at h
      by_cases ht : e.time = s.current_time
      · rw [if_pos ht] at h; cases h
      · rw [if_neg ht] at h; cases h; exact hs
  | succ fuel ih =>
    intro s acc evs s' h hs
    simp only [tickLoop] at h
    cases hpk : heapPeek s.events with
    | none => rw [hpk] at h; cases h; exact hs
    | some e =>
      rw [hpk] at h
      dsimp only at h
      by_cases ht : e.time = s.current_time
      · rw [if_pos ht] at h
        cases hpop : heapPop eventKey s.events with
        | none => rw [hpop] at h; cases h
        | some pr =>
          rw [hpop] at h
          dsimp only at h
          cases hlk : lookupComponent { s with events := pr.2 } pr.1.to_address with
          | none => rw [hlk] at h; cases h
          | some comp =>
            rw [hlk] at h
            dsimp only at h
            cases hh : comp.handle
                { self_address := pr.1.to_address, sender_address := pr.1.from_address,
                  current_time := s.current_time } pr.1.message with
            | none => rw [hh] at h; cases h
            | some r =>
              rw [hh] at h
              dsimp only at h
              cases hap : applyEffector fuel
                  (updateComponent { s with events := pr.2 } pr.1.to_address r.1)
                  pr.1.to_address r.2 with
              | none => rw [hap] at h; cases h
              | some s3 =>
                rw [hap] at h
                have hs1 : CompInv { s with events := pr.2 } := hs
                have hcomp := lookup_compInv _ _ comp hlk hs1
                have hs3 : CompInv s3 := applyEffector_compInv fuel _ _ _ _ hap
                  (update_compInv _ _ _ hs1 (pcomp_handle_inv comp _ pr.1.message r hh hcomp))
                  (pcomp_handle_components comp _ pr.1.message r hh)
                exact ih s3 (acc ++ [pr.1]) evs s' h hs3
      · rw [if_neg ht] at h; cases h; exact hs

theorem tick_compInv (fuel : Nat) (s : DiscreteSystem) (evs : List SysEvent)
    (s' : DiscreteSystem) (h : s.tick fuel = some (evs, s')) (hs : CompInv s) :
    CompInv s' := by
  unfold DiscreteSystem.tick at h
  cases hpk : heapPeek s.events with
  | none => rw [hpk] at h; cases h; exact hs
  | some e0 =>
    rw [hpk] at h
    exact tickLoop_compInv fuel _ [] evs s' h hs

theorem foldStartM_compInv :
    ∀ (order : List Nat) (fuel : Nat) (s s' : DiscreteSystem),
      List.foldlM (fun st addr => startComponentAt fuel st addr) s order = some s' →
      CompInv s → CompInv s' := by
  intro order
  induction order with
  | nil =>
    intro fuel s s' h hs
    cases h
    exact hs
  | cons a rest ih =>
    intro fuel s s' h hs
    rw [List.foldlM_cons] at h
    cases hsa : startComponentAt fuel s a with
    | none => rw [hsa] at h; cases h
    | some s1 =>
      rw [hsa] at h
      exact ih fuel s1 s' h (startComponentAt_compInv fuel s a s1 hsa hs)

theorem startWithOrder_compInv (fuel : Nat) (s : DiscreteSystem) (order : List Nat)
    (s' : DiscreteSystem) (h : startWithOrder fuel s order = some s')
    (hs : CompInv s) : CompInv s' := by
  unfold startWithOrder at h
  cases hf : List.foldlM (fun st addr => startComponentAt fuel st addr) s order with
  | none => rw [hf] at h; cases h
  | some s1 =>
    rw [hf] at h
    dsimp only at h
    have h1 := foldStartM_compInv order fuel s s1 hf hs
    cases hpk : heapPeek s1.events with
    | none => rw [hpk] at h; cases h; exact h1
    | some e =>
      rw [hpk] at h
      dsimp only at h
      by_cases ht : e.time = 0
      · rw [if_pos ht] at h
        cases htk : s1.tick fuel with
        | none => rw [htk] at h; cases h
        | some r =>
          rw [htk] at h
          cases h
          exact tick_compInv fuel s1 r.1 r.2 (by rw [htk]) h1
      · rw [if_neg ht] at h; cases h; exact h1

/-- `Carousel::new` on a validated config satisfies the carousel
invariant. -/
theorem carousel_new_inv (cfg : CarouselConfig) (h1 : 1 ≤ cfg.min_capacity)
    (h2 : cfg.min_capacity ≤ cfg.capacity) : CarouselInvP (Carousel.new cfg) := by
  refine ⟨h1, h2, by simp [Carousel.new], ?_⟩
  rintro (hk | ⟨t, hk⟩) <;> simp [Carousel.new] at hk

theorem new_compInv : CompInv DiscreteSystem.new := by
  intro p hp
  simp [DiscreteSystem.new] at hp

theorem foldRegister_compInv :
    ∀ (cs : List CarouselConfig),
      (∀ cfg ∈ cs, PCompInvP (.Carousel (Carousel.new cfg))) →
      ∀ p : DiscreteSystem × List (Nat × Nat), CompInv p.1 →
      CompInv ((cs.foldl (fun (p : DiscreteSystem × List (Nat × Nat)) cfg =>
        let rc := p.1.register_component (.Carousel (Carousel.new cfg))
        (rc.2, p.2 ++ [(cfg.id, rc.1)])) p)).1 := by
  intro cs
  induction cs with
  | nil => intro _ p hp; exact hp
  | cons c rest ih =>
    intro hcs p hp
    simp only [List.foldl_cons]
    exact ih (fun cfg hcfg => hcs cfg (List.mem_cons_of_mem c hcfg)) _
      (register_compInv _ _ hp (hcs c (List.mem_cons_self c rest)))

/-- Every component of a bootstrapped engine satisfies the component
invariant. -/
theorem bootstrap_compInv (fuel : Nat) (config : SystemConfig) (order : List Nat)
    (s0 : DiscreteSystem) (h : bootstrap_system fuel config order = some s0) :
    CompInv s0 := by
  unfold bootstrap_system at h
  split at h
  · rename_i hv
    refine startWithOrder_compInv fuel _ order s0 h ?_
    refine register_compInv _ _ ?_ trivial
    refine foldRegister_compInv config.carousels ?_ (DiscreteSystem.new, []) new_compInv
    intro cfg hcfg
    obtain ⟨-, hb, -⟩ := hv
    obtain ⟨-, -, -, -, h5, h6⟩ := hb cfg hcfg
    exact carousel_new_inv cfg h5 h6
  · cases h

theorem iterTick_compInv (fuel : Nat) :
    ∀ (n : Nat) (s s' : DiscreteSystem), iterTick fuel n s = some s' →
      CompInv s → CompInv s' := by
  intro n
  induction n with
  | zero => intro s s' h hs; cases h; exact hs
  | succ n ih =>
    intro s s' h hs
    simp only [iterTick] at h
    cases htk : s.tick fuel with
    | none => rw [htk] at h; cases h
    | some r =>
      rw [htk] at h
      exact ih r.2 s' h (tick_compInv fuel s r.1 r.2 htk hs)

/-- `CarouselInvP` holds for every carousel visible in a reachable state. -/
theorem reachable_carousel_inv (fuel : Nat) (config : SystemConfig) (order : List Nat)
    (s0 : DiscreteSystem) (n : Nat) (s : DiscreteSystem)
    (hboot : bootstrap_system fuel config order = some s0)
    (hiter : iterTick fuel n s0 = some s)
    (a : Nat) (c : Carousel) (hc : carouselAt s a = some c) : CarouselInvP c := by
  have hs : CompInv s :=
    iterTick_compInv fuel n s0 s hiter (bootstrap_compInv fuel config order s0 hboot)
  unfold carouselAt at hc
  cases hlk : lookupComponent s a with
  | none => rw [hlk] at hc; cases hc
  | some comp =>
    rw [hlk] at hc
    have hcomp := lookup_compInv s a comp hlk hs
    cases comp with
    | Carousel car =>
      cases hc
      exact hcomp
    | Customer cu => cases hc
    | CustomerDispatcher d => cases hc

/-! ### Start-order independence (`DiscreteSystem::start`) -/

theorem map_update_id_of_not_mem (a : Nat) (comp : PComponent) :
    ∀ l : List (Nat × PComponent), a ∉ l.map Prod.fst →
      l.map (fun p => if p.1 = a then (p.1, comp) else p) = l := by
  intro l
  induction l with
  | nil => intro _; rfl
  | cons p t ih =>
    intro hna
    simp only [List.map_cons, List.mem_cons] at hna
    push_neg at hna
    simp only [List.map_cons]
    rw [if_neg (fun hpa => hna.1 hpa.symm), ih hna.2]

theorem update_id_of_lookup (a : Nat) (comp : PComponent) :
    ∀ l : List (Nat × PComponent), (l.map Prod.fst).Nodup →
      (l.find? (fun p => p.1 = a)).map Prod.snd = some comp →
      l.map (fun p => if p.1 = a then (p.1, comp) else p) = l := by
  intro l
  induction l with
  | nil => intro _ h; simp at h
  | cons p t ih =>
    intro hnd hf
    simp only [List.map_cons, List.nodup_cons] at hnd
    by_cases hpa : p.1 = a
    · rw [List.find?_cons_of_pos _ (by simp [hpa])] at hf
      simp only [Option.map_some', Option.some.injEq] at hf
      simp only [List.map_cons]
      rw [if_pos hpa, map_update_id_of_not_mem a comp t (hpa ▸ hnd.1), ← hf]
    · rw [List.find?_cons_of_neg _ (by simp [hpa])] at hf
      simp only [List.map_cons]
      rw [if_neg hpa, ih hnd.2 hf]

/-- With unique keys, writing back the looked-up value is a no-op (the
basis of carousel `start` being a no-op on the engine). -/
theorem updateComponent_id (s : DiscreteSystem) (a : Nat) (comp : PComponent)
    (hnd : (s.components.map Prod.fst).Nodup)
    (h : lookupComponent s a = some comp) : updateComponent s a comp = s := by
  unfold lookupComponent at h
  unfold updateComponent
  rw [update_id_of_lookup a comp s.components hnd h]

/-- `start_component` at a carousel address changes nothing. -/
theorem startCarousel_id (fuel : Nat) (s : DiscreteSystem) (a : Nat) (car : Carousel)
    (hnd : (s.components.map Prod.fst).Nodup)
    (h : lookupComponent s a = some (.Carousel car)) :
    startComponentAt fuel s a = some s := by
  unfold startComponentAt
  rw [h]
  dsimp only
  unfold applyEffector
  dsimp only [PComponent.start, Carousel.start]
  rw [updateComponent_id s a (.Carousel car) hnd h]
  show instantiateComponents fuel s [] = some s
  cases fuel <;> rfl

/-- `start_component` at the dispatcher address only pushes the first
`Tick` (computed from time `0`) onto the event heap. -/
theorem startDispatcher_char (fuel : Nat) (s : DiscreteSystem) (a : Nat)
    (d : CustomerDispatcher)
    (hnd : (s.components.map Prod.fst).Nodup)
    (h : lookupComponent s a = some (.CustomerDispatcher d)) :
    startComponentAt fuel s a =
      some (enqueueAll s a (CustomerDispatcher.schedule_next d Effector.new 0).events) := by
  unfold startComponentAt
  rw [h]
  dsimp only
  unfold applyEffector
  dsimp only [PComponent.start, CustomerDispatcher.start]
  rw [updateComponent_id s a (.CustomerDispatcher d) hnd h]
  have hcomp : (CustomerDispatcher.schedule_next d Effector.new 0).components = [] := by
    unfold CustomerDispatcher.schedule_next
    cases heapPeek d.customers_configs <;>
      simp [Effector.schedule_in_to_self, Effector.schedule_in, Effector.new]
  rw [hcomp]
  cases fuel <;> rfl

/-- A run of `start_component` calls over carousel addresses is a no-op. -/
theorem foldStart_carousels_id (fuel : Nat) :
    ∀ (order : List Nat) (s : DiscreteSystem),
      (s.components.map Prod.fst).Nodup →
      (∀ a ∈ order, ∃ car, lookupComponent s a = some (.Carousel car)) →
      List.foldlM (fun st addr => startComponentAt fuel st addr) s order = some s := by
  intro order
  induction order with
  | nil => intro s _ _; rfl
  | cons a rest ih =>
    intro s hnd hcl
    rw [List.foldlM_cons]
    obtain ⟨car, hcar⟩ := hcl a (List.mem_cons_self a rest)
    rw [startCarousel_id fuel s a car hnd hcar]
    exact ih s hnd (fun b hb => hcl b (List.mem_cons_of_mem a hb))

/-- Starting the registered components in any order that hits the
dispatcher exactly once (and otherwise only carousels) just pushes the
dispatcher's first `Tick` onto the heap. -/
theorem foldStart_char (fuel : Nat) (aD : Nat) (d : CustomerDispatcher) :
    ∀ (order : List Nat) (s : DiscreteSystem),
      (s.components.map Prod.fst).Nodup →
      lookupComponent s aD = some (.CustomerDispatcher d) →
      (∀ a ∈ order, a = aD ∨ ∃ car, lookupComponent s a = some (.Carousel car)) →
      order.count aD = 1 →
      List.foldlM (fun st addr => startComponentAt fuel st addr) s order =
        some (enqueueAll s aD (CustomerDispatcher.schedule_next d Effector.new 0).events) := by
  intro order
  induction order with
  | nil => intro s _ _ _ hcount; simp at hcount
  | cons a rest ih =>
    intro s hnd hD hcl hcount
    rw [List.foldlM_cons]
    by_cases haD : a = aD
    · subst haD
      rw [startDispatcher_char fuel s a d hnd hD]
      have hnotin : a ∉ rest := by
        rw [List.count_cons_self] at hcount
        exact List.count_eq_zero.mp (by omega)
      refine foldStart_carousels_id fuel rest _ hnd ?_
      intro b hb
      rcases hcl b (List.mem_cons_of_mem a hb) with rfl | hcar
      · exact absurd hb hnotin
      · exact hcar
    · obtain ⟨car, hcar⟩ := (hcl a (List.mem_cons_self a rest)).resolve_left haD
      rw [startCarousel_id fuel s a car hnd hcar]
      refine ih s hnd hD (fun b hb => hcl b (List.mem_cons_of_mem a hb)) ?_
      rwa [List.count_cons_of_ne (fun he => haD he.symm)] at hcount

/-- The registration fold appends exactly the carousels at consecutive
addresses and advances the generator. -/
theorem regFold_char (cs : List CarouselConfig) :
    ∀ p : DiscreteSystem × List (Nat × Nat),
      (cs.foldl (fun (p : DiscreteSystem × List (Nat × Nat)) cfg =>
        let rc := p.1.register_component (.Carousel (Carousel.new cfg))
        (rc.2, p.2 ++ [(cfg.id, rc.1)])) p).1.components =
        p.1.components ++ regList p.1.address_generator cs ∧
      (cs.foldl (fun (p : DiscreteSystem × List (Nat × Nat)) cfg =>
        let rc := p.1.register_component (.Carousel (Carousel.new cfg))
        (rc.2, p.2 ++ [(cfg.id, rc.1)])) p).1.address_generator =
        p.1.address_generator + cs.length := by
  induction cs with
  | nil => intro p; exact ⟨(List.append_nil _).symm, rfl⟩
  | cons c rest ih =>
    intro p
    simp only [List.foldl_cons]
    obtain ⟨h1, h2⟩ := ih
      ((p.1.register_component (.Carousel (Carousel.new c))).2,
        p.2 ++ [(c.id, (p.1.register_component (.Carousel (Carousel.new c))).1)])
    refine ⟨?_, ?_⟩
    · rw [h1]
      dsimp only [DiscreteSystem.register_component]
      rw [List.append_assoc]
      rfl
    · rw [h2]
      dsimp only [DiscreteSystem.register_component]
      simp only [List.length_cons]
      omega

theorem regList_keys :
    ∀ (cs : List CarouselConfig) (g : Nat),
      (regList g cs).map Prod.fst = List.range' g cs.length := by
  intro cs
  induction cs with
  | nil => intro g; rfl
  | cons c rest ih =>
    intro g
    simp only [regList, List.map_cons, List.length_cons, List.range'_succ]
    rw [ih (g + 1)]

/-- Looking up any address covered by the registration block yields a
carousel. -/
theorem regList_lookup :
    ∀ (cs : List CarouselConfig) (g a : Nat) (rest2 : List (Nat × PComponent)),
      g ≤ a → a < g + cs.length →
      ∃ car, ((regList g cs ++ rest2).find? (fun p => p.1 = a)).map Prod.snd =
        some (PComponent.Carousel car) := by
  intro cs
  induction cs with
  | nil =>
    intro g a rest2 h1 h2
    simp only [List.length_nil] at h2
    omega
  | cons c rest ih =>
    intro g a rest2 h1 h2
    by_cases hga : g = a
    · refine ⟨Carousel.new c, ?_⟩
      simp only [regList, List.cons_append]
      rw [List.find?_cons_of_pos _ (by simp [hga])]
      simp
    · simp only [regList, List.cons_append]
      rw [List.find?_cons_of_neg _ (by simp [hga])]
      exact ih (g + 1) a rest2 (by omega)
        (by simp only [List.length_cons] at h2; omega)

/-- Looking up the address right after the registration block yields the
component registered there. -/
theorem regList_lookup_last :
    ∀ (cs : List CarouselConfig) (g n : Nat) (x : PComponent), n = g + cs.length →
      ((regList g cs ++ [(n, x)]).find? (fun p => p.1 = n)).map Prod.snd = some x := by
  intro cs
  induction cs with
  | nil =>
    intro g n x hn
    simp [List.find?]
  | cons c rest ih =>
    intro g n x hn
    simp only [regList, List.cons_append]
    rw [List.find?_cons_of_neg]
    · exact ih (g + 1) n x (by simp only [List.length_cons] at hn; omega)
    · simp only [decide_eq_true_eq]
      simp only [List.length_cons] at hn
      omega

theorem register_components (s : DiscreteSystem) (c : PComponent) :
    (s.register_component c).2.components =
      s.components ++ [(s.address_generator, c)] := rfl

/-- `start()` produces the same state for any two component-iteration
orders that hit the dispatcher exactly once and otherwise only
carousels. -/
theorem startWithOrder_perm (fuel : Nat) (s : DiscreteSystem) (aD : Nat)
    (d : CustomerDispatcher) (order1 order2 : List Nat)
    (hnd : (s.components.map Prod.fst).Nodup)
    (hD : lookupComponent s aD = some (.CustomerDispatcher d))
    (hcl : ∀ a, a ∈ order1 ∨ a ∈ order2 →
      a = aD ∨ ∃ car, lookupComponent s a = some (.Carousel car))
    (hc1 : order1.count aD = 1) (hc2 : order2.count aD = 1) :
    startWithOrder fuel s order1 = startWithOrder fuel s order2 := by
  unfold startWithOrder
  rw [foldStart_char fuel aD d order1 s hnd hD (fun a ha => hcl a (Or.inl ha)) hc1,
      foldStart_char fuel aD d order2 s hnd hD (fun a ha => hcl a (Or.inr ha)) hc2]

/-! ### Claims -/

/-- C6: running the S1 configuration (carousel `{id 1, min_capacity 1,
capacity 1, run_time 10, wait_time 5, extend_time 3}`, customer `{id 1,
arrival_time 0, carousels [1]}`) to completion: after the bootstrap tick at
`t = 0` the carousel is `StandardWaiting` with `StandardWaitEnded 0`
scheduled for `t = 5`; the `t = 5` tick leaves it in `Starting 5` with
cycle `1`; the `t = 6` tick runs `do_ride`, sending `RideStarted` to the
customer (address 2); the `t = 15` tick sends `RideEnded` and returns the
carousel to `StandardWaiting` with `StandardWaitEnded 1` pending at
`t = 20`; the customer ends with `number_of_rides = 1`,
`total_waiting_time = 5`. -/
theorem C6_s1_scenario :
    ((s1Boot.bind fun s => carouselAt s 0).map fun c => (c.state, c.cycle)) =
      some (.StandardWaiting, 0) ∧
    (s1Boot.map fun s => s.events) =
      some [{ time := 5, to_address := 0, from_address := 0,
              message := .CarouselEvent (.StandardWaitEnded 0) }] ∧
    (((s1After 1).bind fun s => carouselAt s 0).map fun c => (c.state, c.cycle)) =
      some (.Starting 5, 1) ∧
    ((runConfig 30 s1Config s1Order).map fun r => r.1) = some
      [[{ time := 5, to_address := 0, from_address := 0,
          message := .CarouselEvent (.StandardWaitEnded 0) }],
       [{ time := 6, to_address := 0, from_address := 0,
          message := .CarouselEvent .Start },
        { time := 6, to_address := 2, from_address := 0,
          message := .CustomerEvent .RideStarted }],
       [{ time := 15, to_address := 0, from_address := 0,
          message := .CarouselEvent .EndRide },
        { time := 15, to_address := 2, from_address := 0,
          message := .CustomerEvent .RideEnded }],
       [{ time := 20, to_address := 0, from_address := 0,
          message := .CarouselEvent (.StandardWaitEnded 1) }]] ∧
    (((s1After 3).bind fun s => carouselAt s 0).map fun c => c.state) =
      some .StandardWaiting ∧
    ((s1After 3).map fun s => s.events) =
      some [{ time := 20, to_address := 0, from_address := 0,
              message := .CarouselEvent (.StandardWaitEnded 1) }] ∧
    (((s1After 4).bind fun s => customerAt s 2).map fun c =>
        (c.number_of_rides, c.total_waiting_time)) = some (1, 5) ∧
    ((s1After 4).map fun s => s.events.isEmpty) = some true := by
  decide

/-- C1 (counterexample): five events with equal time `5`, tagged by
`from_address` and pushed into the event heap in the order
1, 2, 3, 4, 5 (the definition of `fifoHeap`), are popped and handled by
`tick` in the order 1, 3, 5, 2, 4: the event pushed second is delivered
after the event pushed third, refuting stable FIFO delivery at equal
timestamps. -/
theorem C1_counterexample :
    fifoHeap = [taggedEvent 1, taggedEvent 2, taggedEvent 3, taggedEvent 4,
      taggedEvent 5] ∧
    (∀ e ∈ fifoHeap, e.time = 5) ∧
    ((fifoSystem.tick 10).map fun r => r.1.map SysEvent.from_address) =
      some [1, 3, 5, 2, 4] := by
  decide

/-- C2 (counterexample): in the reachable state of `staleConfig` just
before the `t = 7` tick, the carousel (address 0) has `cycle = 1` and
`max_customers_queue_len = 1`, and the next event delivered to it is the
stale `ExtendedWaitEnded 0`; handling that stale event changes
`max_customers_queue_len` to `2`, so the carousel's state is not left
entirely unchanged. -/
theorem C2_counterexample :
    (staleCarousel.map fun c => (c.cycle, c.max_customers_queue_len)) =
      some (1, 1) ∧
    (staleState.map fun s => s.events.head?.map fun e =>
        (e.time, e.to_address, e.message)) =
      some (some (7, 0, .CarouselEvent (.ExtendedWaitEnded 0))) ∧
    (staleCarousel.bind fun c =>
      (Carousel.handle c { self_address := 0, sender_address := 0, current_time := 7 }
        (.CarouselEvent (.ExtendedWaitEnded 0))).map fun r =>
          r.1.max_customers_queue_len) = some 2 := by
  decide

/-- C2 (amended): a stale `StandardWaitEnded n` / `ExtendedWaitEnded n`
with `n ≠ cycle` yields an empty effector and leaves the carousel's mode,
queues, cycle, rides and averages unchanged; the only state change is the
unconditional entry refresh of `max_customers_queue_len`, plus the
`idle_time` accrual when the carousel is `Idle`. -/
theorem C2_stale_wait_end (c : Carousel) (info : HandleInfo) (n : Nat)
    (hn : n ≠ c.cycle) (m : CarouselMsg)
    (hm : m = .StandardWaitEnded n ∨ m = .ExtendedWaitEnded n) :
    Carousel.handle c info (.CarouselEvent m) =
      some (c.metricRefresh info.current_time, Effector.new) := by
  rcases hm with rfl | rfl <;>
  · simp only [Carousel.handle, Carousel.handleEntry, Carousel.handleIntake,
      Carousel.handleDispatch, Carousel.metricRefresh, ParkEvent.intoCarousel,
      Option.some.injEq, reduceCtorEq, reduceIte]
    cases hs : c.state <;> simp [hs, Ne.symm hn]

theorem C2_stale_wait_end_witness :
    (1 ≠ (Carousel.new tinyCfg).cycle) ∧
    Carousel.handle (Carousel.new tinyCfg)
      { self_address := 0, sender_address := 0, current_time := 3 }
      (.CarouselEvent (.StandardWaitEnded 1)) =
      some ((Carousel.new tinyCfg).metricRefresh 3, Effector.new) :=
  ⟨by decide,
   C2_stale_wait_end _ _ 1 (by decide) _ (Or.inl rfl)⟩

/-- C8 (counterexample): a message whose envelope tag does not match the
carousel (here `CustomerEvent RideStarted`, which projects to `none` for a
carousel) still changes the carousel's state when it is `Idle`: the fresh
carousel has `idle_time = 0`, but handling the mismatched message at
`current_time = 3` leaves `idle_time = 3`. -/
theorem C8_counterexample :
    (ParkEvent.CustomerEvent .RideStarted).intoCarousel = none ∧
    (Carousel.new tinyCfg).idle_time = 0 ∧
    ((Carousel.handle (Carousel.new tinyCfg)
      { self_address := 0, sender_address := 0, current_time := 3 }
      (.CustomerEvent .RideStarted)).map fun r => r.1.idle_time) = some 3 := by
  decide

/-- C8 (amended): a type-mismatched message always yields an empty
effector; the dispatcher and the customer are left entirely unchanged,
while the carousel still refreshes `max_customers_queue_len` and, when
`Idle`, accrues `idle_time`. -/
theorem C8_mismatched_message :
    (∀ (d : CustomerDispatcher) (info : HandleInfo) (m : ParkEvent),
      m.intoDispatcher = none →
      CustomerDispatcher.handle d info m = some (d, Effector.new)) ∧
    (∀ (cu : Customer) (info : HandleInfo) (m : ParkEvent),
      m.intoCustomer = none →
      Customer.handle cu info m = (cu, Effector.new)) ∧
    (∀ (c : Carousel) (info : HandleInfo) (m : ParkEvent),
      m.intoCarousel = none →
      Carousel.handle c info m =
        some (c.metricRefresh info.current_time, Effector.new)) := by
  refine ⟨?_, ?_, ?_⟩
  · intro d info m hm
    simp [CustomerDispatcher.handle, hm]
  · intro cu info m hm
    cases hs : cu.state <;> simp [Customer.handle, hm, hs]
  · intro c info m hm
    simp only [Carousel.handle, Carousel.handleEntry, Carousel.handleIntake,
      Carousel.handleDispatch, Carousel.metricRefresh, hm, reduceCtorEq, reduceIte]
    cases hs : c.state <;> simp [hs]

theorem C8_mismatched_message_witness :
    (ParkEvent.CarouselEvent .Start).intoDispatcher = none ∧
    CustomerDispatcher.handle { carousels := [], customers_configs := [] }
      { self_address := 0, sender_address := 0, current_time := 0 }
      (.CarouselEvent .Start) =
      some ({ carousels := [], customers_configs := [] }, Effector.new) :=
  ⟨rfl, C8_mismatched_message.1 _ _ _ rfl⟩

/-- C10: a customer whose remaining `carousels` list is empty transitions
to `Idle` with an empty effector (no scheduled events, no spawned
components), setting `started_waiting_on` to the current time and
`total_time` to `current_time - arrival_time` — both when `start` runs
`next_run` and when `RideEnded` arrives in mode `OnCarousel`. -/
theorem C10_next_run_empty (cu : Customer) (hc : cu.carousels = []) :
    (∀ info : StartInfo, Customer.start cu info =
      ({ cu with state := .Idle, started_waiting_on := info.current_time,
                 total_time := info.current_time - cu.config.arrival_time },
       Effector.new)) ∧
    (∀ (info : HandleInfo) (id : Nat), cu.state = .OnCarousel id →
      Customer.handle cu info (.CustomerEvent .RideEnded) =
      ({ cu with state := .Idle, started_waiting_on := info.current_time,
                 total_time := info.current_time - cu.config.arrival_time },
       Effector.new)) := by
  constructor
  · intro info
    simp [Customer.start, Customer.next_run, hc]
  · intro info id hs
    simp [Customer.handle, hs, Customer.next_run, hc, ParkEvent.intoCustomer]

/-- C1 (amended): ties at equal time are popped in binary-heap order, not
insertion order; what does hold is that all events drained by one `tick`
call carry the same (new) timestamp, zero-delay cascades included. -/
theorem C1_equal_time_drain (fuel : Nat) (s : DiscreteSystem) (evs : List SysEvent)
    (s' : DiscreteSystem) (h : s.tick fuel = some (evs, s')) :
    ∀ e ∈ evs, e.time = s'.current_time := by
  unfold DiscreteSystem.tick at h
  cases hpk : heapPeek s.events with
  | none =>
    rw [hpk] at h
    cases h
    simp
  | some e0 =>
    rw [hpk] at h
    obtain ⟨hc, ⟨tail, htl, htt⟩, -⟩ := tickLoop_spec fuel _ [] evs s' h
    intro e he
    rw [hc]
    exact htt e (by rw [htl] at he; simpa using he)

theorem C1_equal_time_drain_witness :
    ((fifoSystem.tick 10).map fun r =>
      decide (∀ e ∈ r.1, e.time = r.2.current_time)) = some true := by
  cases hr : fifoSystem.tick 10 with
  | none => exact absurd hr (by decide)
  | some r =>
    have h := C1_equal_time_drain 10 fifoSystem r.1 r.2 (by rw [hr])
    simp only [Option.map_some', Option.some.injEq, decide_eq_true_eq]
    intro e he
    exact h e he

/-- C3: `tick` on an empty queue returns the empty list and leaves the
engine untouched; otherwise it sets `current_time` to the head event's
time — the minimum time present in the queue — drains exactly the events
carrying that timestamp (the head first, cascades included, so that no
event with that timestamp remains queued), and never moves `current_time`
backwards. -/
theorem C3_tick_contract :
    (∀ (fuel : Nat) (s : DiscreteSystem), s.events = [] → s.tick fuel = some ([], s)) ∧
    (∀ (fuel : Nat) (s : DiscreteSystem) (evs : List SysEvent) (s' : DiscreteSystem)
      (e0 : SysEvent), EventsInv s → heapPeek s.events = some e0 →
      s.tick fuel = some (evs, s') →
      s'.current_time = e0.time ∧
      (∀ y ∈ s.events, e0.time ≤ y.time) ∧
      evs.head? = some e0 ∧
      (∀ e ∈ evs, e.time = e0.time) ∧
      (∀ e ∈ s'.events, e0.time < e.time) ∧
      s.current_time ≤ s'.current_time) := by
  constructor
  · exact tick_empty
  · intro fuel s evs s' e0 hInv hpk h
    obtain ⟨hI, hmono, htimes, hstrict⟩ := tick_inv fuel s evs s' h hInv
    have hr : s.events[0]? = some e0 := by
      cases hev : s.events with
      | nil => rw [hev] at hpk; cases hpk
      | cons a t =>
        rw [hev] at hpk
        cases hpk
        simp
    unfold DiscreteSystem.tick at h
    rw [hpk] at h
    obtain ⟨hc, -, hfirst⟩ := tickLoop_spec fuel _ [] evs s' h
    obtain ⟨tail, htail⟩ := hfirst e0 hpk rfl
    have hcur : s'.current_time = e0.time := hc
    refine ⟨hcur, ?_, ?_, ?_, ?_, ?_⟩
    · intro y hy
      obtain ⟨i, hi⟩ := getElem?_of_mem' hy
      exact heapProp_root_le eventKey hInv.1 hr i y hi
    · rw [htail]
      simp
    · intro e he
      rw [← hcur]
      exact htimes e he
    · intro e he
      rw [← hcur]
      exact hstrict e he
    · exact hmono

theorem C3_tick_contract_witness :
    fifoSystem.events = fifoHeap ∧
    ((fifoSystem.tick 10).map fun r =>
      decide (r.2.current_time = 5) && decide (r.1.head? = some (taggedEvent 1))) =
      some true := by
  refine ⟨rfl, ?_⟩
  cases hr : fifoSystem.tick 10 with
  | none => exact absurd hr (by decide)
  | some r =>
    have h := C3_tick_contract.2 10 fifoSystem r.1 r.2 (taggedEvent 1)
      ⟨heapProp_of_const eventKey fifoSystem.events 5 (by decide), by decide⟩
      (by decide) (by rw [hr])
    simp only [Option.map_some', Option.some.injEq, Bool.and_eq_true, decide_eq_true_eq]
    exact ⟨h.1, h.2.2.1⟩

/-- C5: in every state reachable from a bootstrapped configuration the
event queue holds no event with `time < current_time` (effector
application always enqueues at `current_time + delay`), and `current_time`
is non-decreasing across `tick` calls. -/
theorem C5_no_past_events :
    (∀ (fuel : Nat) (config : SystemConfig) (order : List Nat) (s0 : DiscreteSystem),
      bootstrap_system fuel config order = some s0 →
      ∀ e ∈ s0.events, s0.current_time ≤ e.time) ∧
    (∀ (fuel : Nat) (s : DiscreteSystem) (evs : List SysEvent) (s' : DiscreteSystem),
      EventsInv s → s.tick fuel = some (evs, s') →
      (∀ e ∈ s'.events, s'.current_time ≤ e.time) ∧ EventsInv s' ∧
      s.current_time ≤ s'.current_time) := by
  constructor
  · intro fuel config order s0 h
    exact (bootstrap_inv fuel config order s0 h).2
  · intro fuel s evs s' hInv h
    obtain ⟨hI, hmono, -, -⟩ := tick_inv fuel s evs s' h hInv
    exact ⟨hI.2, hI, hmono⟩

theorem C5_no_past_events_witness :
    ((bootstrap_system 30 s1Config s1Order).map fun s0 =>
      decide (∀ e ∈ s0.events, s0.current_time ≤ e.time)) = some true := by
  cases hb : bootstrap_system 30 s1Config s1Order with
  | none => exact absurd hb (by decide)
  | some s0 =>
    have h := C5_no_past_events.1 30 s1Config s1Order s0 (by rw [hb])
    simp only [Option.map_some', Option.some.injEq, decide_eq_true_eq]
    intro e he
    exact h e he

theorem C10_next_run_empty_witness :
    ((Customer.new [] { id := 4, arrival_time := 2, carousels := [] }).carousels = []) ∧
    Customer.start (Customer.new [] { id := 4, arrival_time := 2, carousels := [] })
      { self_address := 5, current_time := 9 } =
      ({ Customer.new [] { id := 4, arrival_time := 2, carousels := [] } with
          state := .Idle, started_waiting_on := 9, total_time := 7 },
       Effector.new) := by
  refine ⟨rfl, ?_⟩
  have h := (C10_next_run_empty
    (Customer.new [] { id := 4, arrival_time := 2, carousels := [] }) rfl).1
    { self_address := 5, current_time := 9 }
  simpa using h

/-- C4: the carousel handler keeps `customers_inner_queue.length ≤
config.capacity` whenever it held on entry (with a validated config), and
in every engine state reachable from a bootstrapped configuration every
registered carousel satisfies the bound. -/
theorem C4_inner_queue_capacity :
    (∀ (c : Carousel) (info : HandleInfo) (m : ParkEvent) (r : Carousel × Effector),
      c.config.min_capacity ≤ c.config.capacity →
      c.customers_inner_queue.length ≤ c.config.capacity →
      Carousel.handle c info m = some r →
      r.1.customers_inner_queue.length ≤ r.1.config.capacity) ∧
    (∀ (fuel : Nat) (config : SystemConfig) (order : List Nat) (s0 : DiscreteSystem)
      (n : Nat) (s : DiscreteSystem),
      bootstrap_system fuel config order = some s0 →
      iterTick fuel n s0 = some s →
      ∀ (a : Nat) (c : Carousel), carouselAt s a = some c →
        c.customers_inner_queue.length ≤ c.config.capacity) := by
  constructor
  · intro c info m r _ hcap h
    exact (carousel_handle_cap c info m r hcap h).1
  · intro fuel config order s0 n s hb hi a c hc
    exact (reachable_carousel_inv fuel config order s0 n s hb hi a c hc).2.2.1

theorem C4_inner_queue_capacity_witness :
    ((s1CarouselAfter 2).map fun c =>
      decide (c.customers_inner_queue.length ≤ c.config.capacity)) = some true := by
  cases hc : s1CarouselAfter 2 with
  | none => exact absurd hc (by decide)
  | some c =>
    simp only [Option.map_some', Option.some.injEq, decide_eq_true_eq]
    unfold s1CarouselAfter at hc
    cases hs : s1After 2 with
    | none => rw [hs] at hc; cases hc
    | some s =>
      rw [hs] at hc
      unfold s1After at hs
      cases hb : s1Boot with
      | none => rw [hb] at hs; cases hs
      | some s0 =>
        rw [hb] at hs
        exact C4_inner_queue_capacity.2 30 s1Config s1Order s0 2 s hb hs 0 c hc

/-- C9: in every engine state reachable from a bootstrapped configuration,
a carousel in `ExtendedWaiting` mode has a non-empty inner queue; and
handling a non-stale `ExtendedWaitEnded` in that mode starts a ride
(`Starting`, inner queue still non-empty) whose subsequent `Start` puts
those queued customers on the ride. -/
theorem C9_extended_nonempty :
    (∀ (fuel : Nat) (config : SystemConfig) (order : List Nat) (s0 : DiscreteSystem)
      (n : Nat) (s : DiscreteSystem),
      bootstrap_system fuel config order = some s0 →
      iterTick fuel n s0 = some s →
      ∀ (a : Nat) (c : Carousel), carouselAt s a = some c →
        c.state = CState.ExtendedWaiting → c.customers_inner_queue ≠ []) ∧
    (∀ (c : Carousel) (info : HandleInfo) (r : Carousel × Effector),
      c.state = CState.ExtendedWaiting → c.customers_inner_queue ≠ [] →
      Carousel.handle c info (.CarouselEvent (.ExtendedWaitEnded c.cycle)) = some r →
      r.1.state = CState.Starting info.current_time ∧
      r.1.customers_inner_queue = c.customers_inner_queue ∧
      ∀ (info2 : HandleInfo) (r2 : Carousel × Effector),
        Carousel.handle r.1 info2 (.CarouselEvent .Start) = some r2 →
        r2.1.customers_on_ride = c.customers_inner_queue) := by
  constructor
  · intro fuel config order s0 n s hb hi a c hc hst
    exact (reachable_carousel_inv fuel config order s0 n s hb hi a c hc).2.2.2
      (Or.inl hst)
  · intro c info r hst hne h
    unfold Carousel.handle at h
    dsimp only [ParkEvent.intoCarousel] at h
    unfold Carousel.handleIntake at h
    rw [if_neg (by simp)] at h
    unfold Carousel.handleDispatch at h
    have hst2 : c.handleEntry.state = CState.ExtendedWaiting := hst
    rw [hst2] at h
    dsimp only at h
    rw [if_pos (show c.handleEntry.cycle = c.cycle from rfl)] at h
    cases h
    refine ⟨rfl, rfl, ?_⟩
    intro info2 r2 h2
    unfold Carousel.handle at h2
    dsimp only [ParkEvent.intoCarousel] at h2
    unfold Carousel.handleIntake at h2
    rw [if_neg (by simp)] at h2
    unfold Carousel.handleDispatch at h2
    dsimp only [Carousel.start_ride, Carousel.handleEntry] at h2
    cases h2
    rfl

theorem C9_extended_nonempty_witness :
    ((staleCar1).map fun c =>
      decide (c.state = CState.ExtendedWaiting) &&
      decide (c.customers_inner_queue ≠ [])) = some true := by
  cases hc : staleCar1 with
  | none => exact absurd hc (by decide)
  | some c =>
    have hstP : (staleCar1.map fun x => decide (x.state = CState.ExtendedWaiting)) =
        some true := by decide
    rw [hc] at hstP
    simp only [Option.map_some', Option.some.injEq, decide_eq_true_eq] at hstP
    unfold staleCar1 at hc
    cases hb : bootstrap_system 30 staleConfig s1Order with
    | none => rw [hb] at hc; cases hc
    | some s0 =>
      rw [hb] at hc
      dsimp only at hc
      cases hi : iterTick 30 1 s0 with
      | none => rw [hi] at hc; cases hc
      | some s =>
        rw [hi] at hc
        have hne := C9_extended_nonempty.1 30 staleConfig s1Order s0 1 s hb hi 0 c hc hstP
        simp only [Option.map_some', Option.some.injEq, Bool.and_eq_true,
          decide_eq_true_eq]
        exact ⟨hstP, hne⟩

/-- C7: a run of the bootstrapped engine is deterministic.  The only
run-to-run variation the code admits is the `HashMap` iteration order
used by `start()`; for any two such orders (permutations of the
registered addresses) the bootstrapped state and the whole drained-event
trace coincide, because carousel `start`s are engine no-ops and the
single dispatcher `start` pushes the same first `Tick` wherever it
occurs. -/
theorem C7_determinism (fuel : Nat) (config : SystemConfig) (order1 order2 : List Nat)
    (hv : ValidConfig config)
    (h1 : order1.Perm (List.range (config.carousels.length + 1)))
    (h2 : order2.Perm (List.range (config.carousels.length + 1))) :
    bootstrap_system fuel config order1 = bootstrap_system fuel config order2 ∧
    runConfig fuel config order1 = runConfig fuel config order2 := by
  have hboot : bootstrap_system fuel config order1 = bootstrap_system fuel config order2 := by
    have hc1 : (config.carousels.foldl (fun (p : DiscreteSystem × List (Nat × Nat)) cfg =>
        let rc := p.1.register_component (.Carousel (Carousel.new cfg))
        (rc.2, p.2 ++ [(cfg.id, rc.1)])) (DiscreteSystem.new, [])).1.components =
        regList 0 config.carousels := by
      rw [(regFold_char config.carousels (DiscreteSystem.new, [])).1]
      simp [DiscreteSystem.new]
    have hg1 : (config.carousels.foldl (fun (p : DiscreteSystem × List (Nat × Nat)) cfg =>
        let rc := p.1.register_component (.Carousel (Carousel.new cfg))
        (rc.2, p.2 ++ [(cfg.id, rc.1)])) (DiscreteSystem.new, [])).1.address_generator =
        config.carousels.length := by
      rw [(regFold_char config.carousels (DiscreteSystem.new, [])).2]
      simp [DiscreteSystem.new]
    have hcount : ∀ order : List Nat,
        order.Perm (List.range (config.carousels.length + 1)) →
        order.count config.carousels.length = 1 := by
      intro order hp
      rw [hp.count_eq]
      exact List.count_eq_one_of_mem (List.nodup_range _)
        (List.mem_range.mpr (by omega))
    unfold bootstrap_system
    rw [if_pos hv, if_pos hv]
    dsimp only
    refine startWithOrder_perm fuel _ config.carousels.length
      (CustomerDispatcher.new
        (config.carousels.foldl (fun (p : DiscreteSystem × List (Nat × Nat)) cfg =>
          let rc := p.1.register_component (.Carousel (Carousel.new cfg))
          (rc.2, p.2 ++ [(cfg.id, rc.1)])) (DiscreteSystem.new, [])).2
        config.customers)
      order1 order2 ?_ ?_ ?_ (hcount order1 h1) (hcount order2 h2)
    · rw [register_components, hc1, hg1, List.map_append, regList_keys]
      simp only [List.map_cons, List.map_nil]
      rw [List.nodup_append]
      refine ⟨List.nodup_range' _ _, List.nodup_singleton _, ?_⟩
      intro x hx
      simp only [List.mem_singleton]
      intro hxl
      rw [List.mem_range'_1] at hx
      omega
    · unfold lookupComponent
      rw [register_components, hc1, hg1]
      exact regList_lookup_last config.carousels 0 config.carousels.length _ (by omega)
    · intro a ha
      have hmem : a ∈ List.range (config.carousels.length + 1) := by
        rcases ha with ha | ha
        · exact h1.mem_iff.mp ha
        · exact h2.mem_iff.mp ha
      have halt : a < config.carousels.length + 1 := List.mem_range.mp hmem
      by_cases haD : a = config.carousels.length
      · exact Or.inl haD
      · refine Or.inr ?_
        unfold lookupComponent
        rw [register_components, hc1, hg1]
        exact regList_lookup config.carousels 0 a _ (Nat.zero_le a) (by omega)
  refine ⟨hboot, ?_⟩
  unfold runConfig
  rw [hboot]

theorem C7_determinism_witness :
    bootstrap_system 30 s1Config [0, 1] = bootstrap_system 30 s1Config [1, 0] ∧
    runConfig 30 s1Config [0, 1] = runConfig 30 s1Config [1, 0] :=
  C7_determinism 30 s1Config [0, 1] [1, 0] (by decide) (by decide) (by decide)

end MffDiscrete
